import Mathlib

/-!
# Sparse polynomials of `HW3.cpp`

A verification development for the `Polynomial` class of `src/src/HW3.cpp`.

Modelling conventions.

* The class stores its terms in a circular singly linked list closed by a
  sentinel `head` node.  A polynomial is represented here by the sequence of
  the nodes met when walking from `head->link` until `head` is reached again,
  so `current != head` reads "the remaining list is not empty".
* The C++ `int` fields `coef` and `exp` are represented by `Int`.  Signed
  overflow is undefined behaviour in C++, so the development describes the
  executions in which no `int` operation overflows.
* A member function that mutates `*this` becomes a function from the old term
  sequence to the new one.
* `operator+`, `operator-` and `operator*` return their local `result` by
  value.  Whether or not the compiler elides the copy, the caller receives the
  same term sequence: the results are normalized and the copy constructor
  reproduces a normalized sequence unchanged (`copy_of_normalized`).
* `Evaluate` has two models.  `Evaluate` is over exact rational arithmetic in
  place of `float`, for the property that is stated over exact arithmetic.
  `EvaluateFloat` follows the arithmetic of the source: a `float` or `double`
  is its exact value (or `none` for an infinity or a NaN), every operation
  rounds to nearest, ties to even, and the library function `pow` is a
  parameter.
* An output stream is represented by the characters written to it, an input
  stream by the characters not yet extracted and its `good()` flag.  Where
  `operator>>` would use an `int` that no extraction has written (the source
  declares `n`, `coef` and `exp` without initializing them) the result is
  `none`.
-/

namespace HW3

/-- A list node of the source (`struct Node`), without its `link` field: one
term `coef * x^exp`. -/
structure Node where
  coef : Int
  exp : Int
deriving DecidableEq

/-- The term sequence of a `Polynomial`: the nodes from `head->link` up to
(not including) the sentinel `head`. -/
abbrev Polynomial := List Node

/-- The default constructor: only the sentinel, no term. -/
def Polynomial.empty : Polynomial := []

/-- The body of `addTerm` once `coef != 0` is known: the `while` loop walks
past the nodes whose exponent is greater than `exp`; at the node where it
stops (or at the sentinel) the term is merged, removed or inserted. -/
def addTerm.scan (coef exp : Int) : List Node → List Node
  | [] => [⟨coef, exp⟩]
  | current :: rest =>
    if current.exp > exp then current :: addTerm.scan coef exp rest
    else if current.exp = exp then
      if current.coef + coef = 0 then rest
      else ⟨current.coef + coef, current.exp⟩ :: rest
    else ⟨coef, exp⟩ :: current :: rest

/-- The member `Polynomial::addTerm(int coef, int exp)`. -/
def addTerm (p : Polynomial) (coef exp : Int) : Polynomial :=
  if coef = 0 then p else addTerm.scan coef exp p

/-- The `while` loop of the copy constructor (and of `operator=` on a distinct
object, after `clear()`): every node of `other` is added to the destination in
stored order. -/
def copyLoop : List Node → Polynomial → Polynomial
  | [], result => result
  | current :: rest, result =>
    copyLoop rest (addTerm result current.coef current.exp)

/-- The copy constructor `Polynomial(const Polynomial& other)`. -/
def copy (other : Polynomial) : Polynomial :=
  copyLoop other Polynomial.empty

/-- The `while` loop of `operator+`: `p1` and `p2` are the two cursors (the
nodes not yet consumed of each operand), `result` the polynomial built so
far. -/
def addLoop : List Node → List Node → Polynomial → Polynomial
  | [], [], result => result
  | a :: p1, [], result => addLoop p1 [] (addTerm result a.coef a.exp)
  | [], b :: p2, result => addLoop [] p2 (addTerm result b.coef b.exp)
  | a :: p1, b :: p2, result =>
    if a.exp > b.exp then
      addLoop p1 (b :: p2) (addTerm result a.coef a.exp)
    else if b.exp > a.exp then
      addLoop (a :: p1) p2 (addTerm result b.coef b.exp)
    else
      addLoop p1 p2 (addTerm result (a.coef + b.coef) a.exp)
termination_by p1 p2 _ => p1.length + p2.length

/-- The member `Polynomial::operator+`. -/
def add (p b : Polynomial) : Polynomial :=
  addLoop p b Polynomial.empty

/-- The `while` loop of `operator-`: every term of `b` is added to `result`
with its coefficient negated. -/
def negLoop : List Node → Polynomial → Polynomial
  | [], result => result
  | b :: p2, result => negLoop p2 (addTerm result (-b.coef) b.exp)

/-- The member `Polynomial::operator-`: `*this + result`, where `result` is
what the negation loop built. -/
def sub (p b : Polynomial) : Polynomial :=
  add p (negLoop b Polynomial.empty)

/-- The inner `while` loop of `operator*` for one node `a` of the left
operand. -/
def mulInner (a : Node) : List Node → Polynomial → Polynomial
  | [], result => result
  | b :: p2, result =>
    mulInner a p2 (addTerm result (a.coef * b.coef) (a.exp + b.exp))

/-- The outer `while` loop of `operator*`. -/
def mulLoop : List Node → Polynomial → Polynomial → Polynomial
  | [], _, result => result
  | a :: p1, b, result => mulLoop p1 b (mulInner a b result)

/-- The member `Polynomial::operator*`. -/
def mul (p b : Polynomial) : Polynomial :=
  mulLoop p b Polynomial.empty

/-! ## Notions of the specification -/

/-- Exponents strictly decrease along the sequence: every term has a greater
exponent than each term stored after it. -/
def Descending (p : Polynomial) : Prop :=
  List.Pairwise (fun a b => a.exp > b.exp) p

instance (p : Polynomial) : Decidable (Descending p) := by
  unfold Descending; infer_instance

/-- No two stored terms have the same exponent. -/
def DistinctExps (p : Polynomial) : Prop :=
  (p.map Node.exp).Nodup

instance (p : Polynomial) : Decidable (DistinctExps p) := by
  unfold DistinctExps; infer_instance

/-- No stored term has coefficient 0. -/
def NoZero (p : Polynomial) : Prop :=
  ∀ n ∈ p, n.coef ≠ 0

instance (p : Polynomial) : Decidable (NoZero p) := by
  unfold NoZero; infer_instance

/-- Normalized form: exponents strictly descending and no zero
coefficient. -/
def Normalized (p : Polynomial) : Prop :=
  Descending p ∧ NoZero p

instance (p : Polynomial) : Decidable (Normalized p) := by
  unfold Normalized; infer_instance

/-- The coefficient of `p` at exponent `e`: the coefficient of the stored term
with exponent `e`, and 0 when no term with exponent `e` is stored. -/
def coeff : Polynomial → Int → Int
  | [], _ => 0
  | n :: rest, e => if n.exp = e then n.coef else coeff rest e

/-- The sum of the coefficients of all the stored terms of `p` with exponent
`e`.  On a sequence with descending exponents at most one term has exponent
`e`, and this is `coeff p e` (`coeff_eq_coeffSum`). -/
def coeffSum : Polynomial → Int → Int
  | [], _ => 0
  | n :: rest, e => if n.exp = e then n.coef + coeffSum rest e else coeffSum rest e

/-- The polynomial obtained from `p` by a sequence of `addTerm` calls, given
as `(coef, exp)` pairs in call order. -/
def addTerms (calls : List (Int × Int)) (p : Polynomial) : Polynomial :=
  calls.foldl (fun r c => addTerm r c.1 c.2) p

/-- The sum of `c1 * c2` over all pairs of a term `(c1, e1)` of `p` and a term
`(c2, e2)` of `q` with `e1 + e2 = k`. -/
def pairSum (p q : Polynomial) (k : Int) : Int :=
  (((p ×ˢ q).filter (fun ab => ab.1.exp + ab.2.exp = k)).map
    (fun ab => ab.1.coef * ab.2.coef)).sum

/-- The part of `pairSum` contributed by one term `a` of the left operand. -/
def rowSum (a : Node) (q : Polynomial) (k : Int) : Int :=
  ((q.filter (fun b => a.exp + b.exp = k)).map (fun b => a.coef * b.coef)).sum

/-- The polynomial built by `addTerm(-coef, exp)` for each term of `q`, in
stored order, starting from the empty polynomial. -/
def negate (q : Polynomial) : Polynomial :=
  addTerms (q.map (fun t => (-t.coef, t.exp))) Polynomial.empty

/-- Whether a term with exponent `e` is stored. -/
def HasExp (p : Polynomial) (e : Int) : Prop :=
  ∃ n ∈ p, n.exp = e

instance (p : Polynomial) (e : Int) : Decidable (HasExp p e) := by
  unfold HasExp; infer_instance

/-- The sum of the coefficients of the calls of `calls` whose exponent is
`k`. -/
def callSum (calls : List (Int × Int)) (k : Int) : Int :=
  ((calls.filter (fun c => c.2 = k)).map (fun c => c.1)).sum

/-- The member `Polynomial::clear()`: every node except the sentinel is
deleted, the polynomial is the zero polynomial again. -/
def clear (_p : Polynomial) : Polynomial := Polynomial.empty

/-- The `Polynomial` objects of a program, by identity: each object owns the
nodes of its list (they are allocated by `new` inside its own `addTerm` and no
member hands a node pointer out), so the state of the program's polynomials is
the term sequence of each object. -/
abbrev Store := Nat → Polynomial

/-- The store in which object `obj` has the term sequence `v` and every other
object is as in `s`. -/
def Store.set (s : Store) (obj : Nat) (v : Polynomial) : Store :=
  fun o => if o = obj then v else s o

/-- The copy constructor run for a new object `self` with argument `other`. -/
def copyConstruct (s : Store) (self other : Nat) : Store :=
  s.set self (copy (s other))

/-- The member `Polynomial::operator=` called on object `self` with argument
`other`: nothing happens on self-assignment; otherwise `self` is cleared and
every term of `other` is added to it. -/
def assign (s : Store) (self other : Nat) : Store :=
  if self ≠ other then s.set self (copyLoop (s other) (clear (s self))) else s

/-- The member `addTerm` called on object `self`. -/
def addTermAt (s : Store) (self : Nat) (coef exp : Int) : Store :=
  s.set self (addTerm (s self) coef exp)

/-- The `while` loop of `Evaluate`, over exact rational arithmetic in place of
`float`: `result += current->coef * pow(x, current->exp)`.  (For `x = 0` and a
negative exponent `x ^ exp` is 0 here, where `pow` returns an infinity.) -/
def EvaluateLoop (x : ℚ) : List Node → ℚ → ℚ
  | [], result => result
  | current :: rest, result =>
    EvaluateLoop x rest (result + (current.coef : ℚ) * x ^ current.exp)

/-- The member `Polynomial::Evaluate`. -/
def Evaluate (p : Polynomial) (x : ℚ) : ℚ :=
  EvaluateLoop x p 0

/-- The sum of `coef_i * x^exp_i` over the stored terms. -/
def evalSum (p : Polynomial) (x : ℚ) : ℚ :=
  (p.map (fun t => (t.coef : ℚ) * x ^ t.exp)).sum

/-! ## Text output and input -/

/-- The characters written by `os << v` for a non-negative `int`: its decimal
digits. -/
def putNat (n : Nat) : List Char := Nat.toDigits 10 n

/-- The characters written by `os << v` for an `int`: its decimal digits, after
a `-` when it is negative. -/
def putInt (v : Int) : List Char :=
  if v < 0 then '-' :: putNat v.natAbs else putNat v.natAbs

/-- The characters one iteration of the `while` loop of `operator<<` writes for
the node `current`, `first` being the flag of the source. -/
def termOut (first : Bool) (current : Node) : List Char :=
  (if !first && current.coef > 0 then [' ', '+', ' '] else [])
  ++ (if current.coef < 0 then [' ', '-', ' '] else [])
  ++ putInt |current.coef|
  ++ (if current.exp ≠ 0 then 'x' :: '^' :: putInt current.exp else [])

/-- The `while` loop of `operator<<`: the characters written for the remaining
nodes; after the first iteration `first` is `false`. -/
def outLoop : List Node → Bool → List Char
  | [], _ => []
  | current :: rest, first => termOut first current ++ outLoop rest false

/-- The friend `operator<<`: the characters it writes to the stream. -/
def streamOut (x : Polynomial) : List Char :=
  outLoop x true

/-- The text of one term in the words of the specification: the separator
(`" - "` when the coefficient is negative, else `" + "` when the term is not
the first, else nothing), the decimal absolute value of the coefficient, and
`x^` with the decimal exponent only when the exponent is not 0. -/
def termText (isFirst : Bool) (t : Node) : List Char :=
  (if t.coef < 0 then [' ', '-', ' '] else if !isFirst then [' ', '+', ' '] else [])
  ++ putNat t.coef.natAbs
  ++ (if t.exp = 0 then [] else ['x', '^'] ++ putInt t.exp)

/-- The serialization format in the words of the specification: the
concatenation of the texts of the stored terms, in stored order. -/
def formatText : Polynomial → List Char
  | [] => []
  | t :: rest => termText true t ++ (rest.map (termText false)).flatten

/-- A state of an input stream: the characters not yet extracted, and whether
`good()` holds (neither `failbit` nor `eofbit` is set). -/
structure IStream where
  chars : List Char
  good : Bool
deriving DecidableEq

/-- The white space skipped before a formatted extraction (`isspace` in the
"C" locale): blank, tab, line feed, vertical tab, form feed, carriage
return. -/
def isSpace (c : Char) : Bool :=
  c = ' ' || (9 ≤ c.toNat && c.toNat ≤ 13)

/-- The characters left after the leading white space is discarded. -/
def skipSpace : List Char → List Char
  | [] => []
  | c :: cs => if isSpace c then skipSpace cs else c :: cs

/-- The longest run of decimal digits at the front, and what follows it. -/
def takeDigits : List Char → List Char × List Char
  | [] => ([], [])
  | c :: cs =>
    if c.isDigit then ((c :: (takeDigits cs).1), (takeDigits cs).2)
    else ([], c :: cs)

/-- The number a run of decimal digits denotes. -/
def digitsVal (ds : List Char) : Nat :=
  ds.foldl (fun v c => 10 * v + (c.toNat - 48)) 0

/-- The extraction `is >> v` of the standard library for an `int` variable
`v`: the new stream state, and the value written into `v` (`none` when `v` is
left as it was).
* When the stream is not good, or only white space is left, the sentry fails:
  `failbit` is set and `v` is not written.
* Otherwise an optional sign and the digits that follow are consumed.  Without
  a digit the conversion fails: `failbit` is set and 0 is written.  With digits
  their value is written, and `eofbit` is set when they ran to the end of the
  input.  (A value too large for an `int` is not treated apart: the numbers
  are unbounded, as in the modelling conventions.) -/
def extractInt (is : IStream) : IStream × Option Int :=
  if !is.good then (⟨is.chars, false⟩, none)
  else
    match skipSpace is.chars with
    | [] => (⟨[], false⟩, none)
    | c :: cs =>
      let body := if c = '-' || c = '+' then cs else c :: cs
      let ds := (takeDigits body).1
      let rest := (takeDigits body).2
      if ds.isEmpty then (⟨rest, false⟩, some 0)
      else
        (⟨rest, !rest.isEmpty⟩,
          some (if c = '-' then -(digitsVal ds : Int) else (digitsVal ds : Int)))

/-- The `for` loop of `operator>>` with `k` iterations left.  An iteration
declares `coef` and `exp` without initializing them, extracts both and calls
`addTerm`.  The result is `none` when an iteration would pass to `addTerm` a
variable that no extraction has written (its value is indeterminate). -/
def inLoop : Nat → IStream → Polynomial → Option (IStream × Polynomial)
  | 0, is, x => some (is, x)
  | k + 1, is, x =>
    match (extractInt is).2, (extractInt (extractInt is).1).2 with
    | some coef, some exp =>
      inLoop k (extractInt (extractInt is).1).1 (addTerm x coef exp)
    | _, _ => none

/-- The friend `operator>>`: `n` is extracted, then the loop runs while
`i < n`.  The result is `none` when `n` was not written (the loop condition
would read an indeterminate value). -/
def streamIn (is : IStream) (x : Polynomial) : Option (IStream × Polynomial) :=
  match (extractInt is).2 with
  | some n => inLoop n.toNat (extractInt is).1 x
  | none => none

/-- The polynomial `operator>>` builds in a fresh (empty) polynomial from a
fresh stream holding `text`. -/
def readPolynomial (text : List Char) : Option Polynomial :=
  (streamIn ⟨text, true⟩ Polynomial.empty).map (fun r => r.2)

/-- The pairs of a term list as `operator>>` reads them: each coefficient and
each exponent in decimal, every number after one blank. -/
def pairsText : List (Int × Int) → List Char
  | [] => []
  | c :: rest => ' ' :: putInt c.1 ++ ' ' :: putInt c.2 ++ pairsText rest

/-- The text of a term list in the input format of `operator>>`
(`n coef1 exp1 coef2 exp2 ...`): the count, then the pairs. -/
def termListText (l : List (Int × Int)) : List Char :=
  putInt l.length ++ pairsText l

/-- The stored terms of a polynomial as a term list, in stored order. -/
def termList (p : Polynomial) : List (Int × Int) :=
  p.map (fun t => (t.coef, t.exp))

/-- The text `r` does not continue a run of digits: it is empty or starts with
a character that is not a decimal digit. -/
def StopsDigits (r : List Char) : Prop :=
  ∀ c, r.head? = some c → c.isDigit = false

/-- Every character of `ds` is a decimal digit. -/
def AllDigits (ds : List Char) : Prop :=
  ∀ c ∈ ds, c.isDigit = true

/-- The text `t` is empty or starts with a blank: what `operator<<` writes for
the terms after the first one. -/
def BlankOrEmpty (t : List Char) : Prop :=
  t = [] ∨ ∃ u, t = ' ' :: u

/-- The exponent part `operator<<` writes for a term: `x^` and the exponent
when the exponent is not 0. -/
def expOut (e : Int) : List Char :=
  if e ≠ 0 then 'x' :: '^' :: putInt e else []

/-! ## `Evaluate` in `float` arithmetic -/

/-- A value of type `float` or `double`: `some q` is the finite value `q` (the
two zeros are not told apart), `none` is an infinity or a NaN. -/
abbrev FP := Option ℚ

/-- The integer nearest to `m`, the even one of the two when `m` lies half way
between them. -/
def roundNearestEven (m : ℚ) : ℤ :=
  if m - ⌊m⌋ < 1 / 2 then ⌊m⌋
  else if 1 / 2 < m - ⌊m⌋ then ⌊m⌋ + 1
  else if ⌊m⌋ % 2 = 0 then ⌊m⌋ else ⌊m⌋ + 1

/-- IEEE 754 rounding to nearest, ties to even, of the exact value `q` into the
binary format with `prec` significand bits and exponents `emin` to `emax`: `q`
is rounded to a multiple of the unit in the last place of its binade (of the
subnormal range below `2 ^ emin`); a result of magnitude `2 ^ (emax + 1)` is an
overflow to infinity. -/
def fpRound (prec : Nat) (emin emax : Int) (q : ℚ) : FP :=
  if q = 0 then some 0
  else if |roundNearestEven (q / 2 ^ (max (Int.log 2 |q|) emin - (prec - 1 : Int)))
      * (2 : ℚ) ^ (max (Int.log 2 |q|) emin - (prec - 1 : Int))| < 2 ^ (emax + 1) then
    some (roundNearestEven (q / 2 ^ (max (Int.log 2 |q|) emin - (prec - 1 : Int)))
      * (2 : ℚ) ^ (max (Int.log 2 |q|) emin - (prec - 1 : Int)))
  else none

/-- Rounding to `float` (binary32). -/
def toFloat (q : ℚ) : FP := fpRound 24 (-126) 127 q

/-- Rounding to `double` (binary64). -/
def toDouble (q : ℚ) : FP := fpRound 53 (-1022) 1023 q

/-- The `while` loop of `Evaluate` in the arithmetic of the source.  `pw x e`
is the `double` the library function `pow` returns for the `float` `x` and the
`int` `e` (both are converted to `double` exactly).  In
`result += current->coef * pow(x, current->exp)` the product and the sum are
computed in `double` and the sum is converted to `float` when it is stored in
`result`.  An infinity or a NaN stays one through these operations. -/
def EvaluateFloatLoop (pw : FP → Int → FP) (x : FP) : List Node → FP → FP
  | [], result => result
  | current :: rest, result =>
    EvaluateFloatLoop pw x rest
      (result.bind (fun r =>
        ((pw x current.exp).bind (fun w => toDouble ((current.coef : ℚ) * w))).bind
          (fun t => (toDouble (r + t)).bind toFloat)))

/-- The member `Polynomial::Evaluate(float x)`, returning `float`. -/
def EvaluateFloat (pw : FP → Int → FP) (p : Polynomial) (x : FP) : FP :=
  EvaluateFloatLoop pw x p (some 0)

/-- The values of `pow` the evaluation at 0 relies on: `pow(0, 0)` is 1 and
`pow(0, e)` is 0 for a positive integer `e`. -/
def PowAtZero (pw : FP → Int → FP) : Prop :=
  pw (some 0) 0 = some 1 ∧ ∀ e : Int, 0 < e → pw (some 0) e = some 0

/-- One `pow` meeting `PowAtZero`: correctly rounded on finite arguments, with
`pow(x, 0) = 1` for every `x` and `pow(0, e)` an infinity for negative `e`.
For an infinite or NaN argument and a non-zero exponent it gives `none`, which
is what `pow` returns except for an infinite argument with a negative exponent
(there `pow` returns 0, a case `FP` cannot tell from the NaN one). -/
def powRounded (x : FP) (e : Int) : FP :=
  if e = 0 then some 1
  else x.bind (fun q => if q = 0 ∧ e < 0 then none else toDouble (q ^ e))

/-- The value `v` is an `int` (32 bits). -/
def IsInt32 (v : Int) : Prop :=
  -2147483648 ≤ v ∧ v ≤ 2147483647

instance (v : Int) : Decidable (IsInt32 v) := by
  unfold IsInt32; infer_instance

/-! ## `addTerm` -/

theorem scan_nil (coef exp : Int) : addTerm.scan coef exp [] = [⟨coef, exp⟩] := rfl

theorem scan_cons_gt (coef exp : Int) (n : Node) (rest : List Node)
    (h : n.exp > exp) :
    addTerm.scan coef exp (n :: rest) = n :: addTerm.scan coef exp rest := by
  rw [addTerm.scan, if_pos h]

theorem scan_cons_eq_zero (coef exp : Int) (n : Node) (rest : List Node)
    (h : n.exp = exp) (hz : n.coef + coef = 0) :
    addTerm.scan coef exp (n :: rest) = rest := by
  rw [addTerm.scan, if_neg (by omega), if_pos h, if_pos hz]

theorem scan_cons_eq_ne (coef exp : Int) (n : Node) (rest : List Node)
    (h : n.exp = exp) (hz : n.coef + coef ≠ 0) :
    addTerm.scan coef exp (n :: rest) = ⟨n.coef + coef, n.exp⟩ :: rest := by
  rw [addTerm.scan, if_neg (by omega), if_pos h, if_neg hz]

theorem scan_cons_lt (coef exp : Int) (n : Node) (rest : List Node)
    (h : n.exp < exp) :
    addTerm.scan coef exp (n :: rest) = ⟨coef, exp⟩ :: n :: rest := by
  rw [addTerm.scan, if_neg (by omega), if_neg (by omega)]

theorem coeffSum_scan (coef exp : Int) (p : Polynomial) (k : Int) :
    coeffSum (addTerm.scan coef exp p) k
      = coeffSum p k + (if exp = k then coef else 0) := by
  induction p with
  | nil => simp [addTerm.scan, coeffSum]
  | cons n rest ih =>
    rcases lt_trichotomy n.exp exp with h | h | h
    · rw [scan_cons_lt coef exp n rest h]
      simp only [coeffSum]
      split_ifs <;> omega
    · by_cases hz : n.coef + coef = 0
      · rw [scan_cons_eq_zero coef exp n rest h hz]
        simp only [coeffSum]
        split_ifs <;> omega
      · rw [scan_cons_eq_ne coef exp n rest h hz]
        simp only [coeffSum]
        split_ifs <;> omega
    · rw [scan_cons_gt coef exp n rest h]
      simp only [coeffSum, ih]
      split_ifs <;> omega

theorem coeffSum_addTerm (p : Polynomial) (coef exp k : Int) :
    coeffSum (addTerm p coef exp) k
      = coeffSum p k + (if exp = k then coef else 0) := by
  unfold addTerm
  by_cases h : coef = 0
  · simp [h]
  · simp only [h, if_false, coeffSum_scan]

theorem exp_of_mem_scan (coef exp : Int) (p : Polynomial) (m : Node)
    (hm : m ∈ addTerm.scan coef exp p) : m.exp = exp ∨ ∃ n ∈ p, n.exp = m.exp := by
  induction p with
  | nil =>
    simp only [addTerm.scan, List.mem_singleton] at hm
    left; rw [hm]
  | cons n rest ih =>
    rcases lt_trichotomy n.exp exp with h | h | h
    · rw [scan_cons_lt coef exp n rest h] at hm
      rcases List.mem_cons.1 hm with rfl | hm
      · left; rfl
      · right; exact ⟨m, hm, rfl⟩
    · by_cases hz : n.coef + coef = 0
      · rw [scan_cons_eq_zero coef exp n rest h hz] at hm
        right; exact ⟨m, List.mem_cons_of_mem _ hm, rfl⟩
      · rw [scan_cons_eq_ne coef exp n rest h hz] at hm
        rcases List.mem_cons.1 hm with rfl | hm
        · left; exact h
        · right; exact ⟨m, List.mem_cons_of_mem _ hm, rfl⟩
    · rw [scan_cons_gt coef exp n rest h] at hm
      rcases List.mem_cons.1 hm with rfl | hm
      · right; exact ⟨m, List.mem_cons_self _ _, rfl⟩
      · rcases ih hm with h' | ⟨n', hn', h'⟩
        · left; exact h'
        · right; exact ⟨n', List.mem_cons_of_mem _ hn', h'⟩

theorem scan_descending (coef exp : Int) (p : Polynomial) (hp : Descending p) :
    Descending (addTerm.scan coef exp p) := by
  induction p with
  | nil => simp [addTerm.scan, Descending]
  | cons n rest ih =>
    unfold Descending at hp ih ⊢
    rw [List.pairwise_cons] at hp
    obtain ⟨hn, hrest⟩ := hp
    rcases lt_trichotomy n.exp exp with h | h | h
    · rw [scan_cons_lt coef exp n rest h]
      refine List.pairwise_cons.2 ⟨?_, List.pairwise_cons.2 ⟨hn, hrest⟩⟩
      intro m hm
      show exp > m.exp
      rcases List.mem_cons.1 hm with rfl | hm
      · omega
      · have := hn m hm
        omega
    · by_cases hz : n.coef + coef = 0
      · rw [scan_cons_eq_zero coef exp n rest h hz]
        exact hrest
      · rw [scan_cons_eq_ne coef exp n rest h hz]
        exact List.pairwise_cons.2 ⟨fun m hm => hn m hm, hrest⟩
    · rw [scan_cons_gt coef exp n rest h]
      refine List.pairwise_cons.2 ⟨?_, ih hrest⟩
      intro m hm
      rcases exp_of_mem_scan coef exp rest m hm with h' | ⟨n', hn', h'⟩
      · omega
      · have := hn n' hn'
        omega

theorem scan_noZero (coef exp : Int) (p : Polynomial) (hc : coef ≠ 0)
    (hp : NoZero p) : NoZero (addTerm.scan coef exp p) := by
  induction p with
  | nil =>
    intro m hm
    simp only [addTerm.scan, List.mem_singleton] at hm
    rw [hm]; exact hc
  | cons n rest ih =>
    have hn : n.coef ≠ 0 := hp n (List.mem_cons_self _ _)
    have hrest : NoZero rest := fun m hm => hp m (List.mem_cons_of_mem _ hm)
    rcases lt_trichotomy n.exp exp with h | h | h
    · rw [scan_cons_lt coef exp n rest h]
      intro m hm
      rcases List.mem_cons.1 hm with rfl | hm
      · exact hc
      · exact hp m hm
    · by_cases hz : n.coef + coef = 0
      · rw [scan_cons_eq_zero coef exp n rest h hz]
        exact hrest
      · rw [scan_cons_eq_ne coef exp n rest h hz]
        intro m hm
        rcases List.mem_cons.1 hm with rfl | hm
        · exact hz
        · exact hrest m hm
    · rw [scan_cons_gt coef exp n rest h]
      intro m hm
      rcases List.mem_cons.1 hm with rfl | hm
      · exact hn
      · exact ih hrest m hm

theorem addTerm_normalized (p : Polynomial) (coef exp : Int) (hp : Normalized p) :
    Normalized (addTerm p coef exp) := by
  unfold addTerm
  by_cases h : coef = 0
  · simpa [h] using hp
  · simp only [h, if_false]
    exact ⟨scan_descending coef exp p hp.1, scan_noZero coef exp p h hp.2⟩

theorem normalized_empty : Normalized Polynomial.empty := by decide

theorem addTerms_normalized (calls : List (Int × Int)) (p : Polynomial)
    (hp : Normalized p) : Normalized (addTerms calls p) := by
  induction calls generalizing p with
  | nil => exact hp
  | cons c rest ih => exact ih _ (addTerm_normalized p c.1 c.2 hp)

theorem descending_distinctExps (p : Polynomial) (hp : Descending p) :
    DistinctExps p := by
  unfold DistinctExps List.Nodup
  unfold Descending at hp
  rw [List.pairwise_map]
  exact hp.imp (fun h => by omega)

theorem descending_chain (p : Polynomial) (hp : Descending p) :
    List.Chain' (fun a b => a.exp > b.exp) p :=
  List.Pairwise.chain' hp

/-! ## Coefficients of a normalized sequence -/

theorem coeffSum_eq_zero_of_not_hasExp (p : Polynomial) (k : Int)
    (h : ¬ HasExp p k) : coeffSum p k = 0 := by
  induction p with
  | nil => rfl
  | cons n rest ih =>
    have hn : n.exp ≠ k := fun e => h ⟨n, List.mem_cons_self _ _, e⟩
    have hr : ¬ HasExp rest k :=
      fun ⟨m, hm, e⟩ => h ⟨m, List.mem_cons_of_mem _ hm, e⟩
    simp only [coeffSum, hn, if_false]
    exact ih hr

theorem not_hasExp_of_lt (p : Polynomial) (k : Int)
    (h : ∀ m ∈ p, m.exp < k) : ¬ HasExp p k := by
  rintro ⟨m, hm, e⟩
  have := h m hm
  omega

theorem coeff_eq_coeffSum (p : Polynomial) (hp : Descending p) (k : Int) :
    coeff p k = coeffSum p k := by
  induction p with
  | nil => rfl
  | cons n rest ih =>
    unfold Descending at hp ih
    rw [List.pairwise_cons] at hp
    obtain ⟨hn, hrest⟩ := hp
    by_cases h : n.exp = k
    · have hz : coeffSum rest k = 0 :=
        coeffSum_eq_zero_of_not_hasExp rest k
          (not_hasExp_of_lt rest k (fun m hm => by have := hn m hm; omega))
      simp only [coeff, coeffSum, h, if_true, hz, add_zero]
    · simp only [coeff, coeffSum, h, if_false]
      exact ih hrest

theorem coeffSum_ne_zero_of_hasExp (p : Polynomial) (hp : Normalized p) (k : Int)
    (h : HasExp p k) : coeffSum p k ≠ 0 := by
  induction p with
  | nil =>
    obtain ⟨m, hm, _⟩ := h
    cases hm
  | cons n rest ih =>
    obtain ⟨hd, hz⟩ := hp
    unfold Descending at hd
    rw [List.pairwise_cons] at hd
    obtain ⟨hn, hrest⟩ := hd
    have hzr : NoZero rest := fun m hm => hz m (List.mem_cons_of_mem _ hm)
    by_cases hk : n.exp = k
    · have h0 : coeffSum rest k = 0 :=
        coeffSum_eq_zero_of_not_hasExp rest k
          (not_hasExp_of_lt rest k (fun m hm => by have := hn m hm; omega))
      simp only [coeffSum, hk, if_true, h0, add_zero]
      exact hz n (List.mem_cons_self _ _)
    · simp only [coeffSum, hk, if_false]
      apply ih ⟨hrest, hzr⟩
      obtain ⟨m, hm, e⟩ := h
      rcases List.mem_cons.1 hm with rfl | hm
      · exact absurd e hk
      · exact ⟨m, hm, e⟩

theorem hasExp_iff_coeffSum_ne_zero (p : Polynomial) (hp : Normalized p) (k : Int) :
    HasExp p k ↔ coeffSum p k ≠ 0 := by
  constructor
  · exact coeffSum_ne_zero_of_hasExp p hp k
  · intro h
    by_contra hc
    exact h (coeffSum_eq_zero_of_not_hasExp p k hc)

/-- A normalized sequence is determined by its coefficients. -/
theorem normalized_ext (p q : Polynomial) (hp : Normalized p) (hq : Normalized q)
    (h : ∀ k, coeffSum p k = coeffSum q k) : p = q := by
  induction p generalizing q with
  | nil =>
    cases q with
    | nil => rfl
    | cons m q' =>
      exfalso
      have h1 := coeffSum_ne_zero_of_hasExp (m :: q') hq m.exp
        ⟨m, List.mem_cons_self _ _, rfl⟩
      exact h1 (h m.exp).symm
  | cons n p' ih =>
    cases q with
    | nil =>
      exfalso
      have h1 := coeffSum_ne_zero_of_hasExp (n :: p') hp n.exp
        ⟨n, List.mem_cons_self _ _, rfl⟩
      exact h1 (h n.exp)
    | cons m q' =>
      have hp' := hp
      have hq' := hq
      obtain ⟨hpd, hpz⟩ := hp
      obtain ⟨hqd, hqz⟩ := hq
      unfold Descending at hpd hqd
      rw [List.pairwise_cons] at hpd hqd
      obtain ⟨hn, hprest⟩ := hpd
      obtain ⟨hm, hqrest⟩ := hqd
      have hp0 : ∀ k, n.exp ≤ k → coeffSum p' k = 0 := fun k hk =>
        coeffSum_eq_zero_of_not_hasExp p' k
          (not_hasExp_of_lt p' k (fun x hx => by have := hn x hx; omega))
      have hq0 : ∀ k, m.exp ≤ k → coeffSum q' k = 0 := fun k hk =>
        coeffSum_eq_zero_of_not_hasExp q' k
          (not_hasExp_of_lt q' k (fun x hx => by have := hm x hx; omega))
      have hnz : n.coef ≠ 0 := hpz n (List.mem_cons_self _ _)
      have hmz : m.coef ≠ 0 := hqz m (List.mem_cons_self _ _)
      have hexp : n.exp = m.exp := by
        rcases lt_trichotomy n.exp m.exp with hlt | heq | hgt
        · exfalso
          have e := h m.exp
          simp only [coeffSum, if_true, if_neg (ne_of_lt hlt),
            hp0 m.exp (le_of_lt hlt), hq0 m.exp le_rfl] at e
          omega
        · exact heq
        · exfalso
          have e := h n.exp
          simp only [coeffSum, if_true, if_neg (ne_of_lt hgt),
            hp0 n.exp le_rfl, hq0 n.exp (le_of_lt hgt)] at e
          omega
      have hcoef : n.coef = m.coef := by
        have e := h n.exp
        simp only [coeffSum, if_true, if_pos hexp.symm,
          hp0 n.exp le_rfl, hq0 n.exp (le_of_eq hexp.symm)] at e
        omega
      have hnm : n = m := by
        cases n; cases m
        simp only at hexp hcoef
        rw [hexp, hcoef]
      have htail : p' = q' := by
        apply ih q' ⟨hprest, fun x hx => hpz x (List.mem_cons_of_mem _ hx)⟩
          ⟨hqrest, fun x hx => hqz x (List.mem_cons_of_mem _ hx)⟩
        intro k
        by_cases hk : n.exp = k
        · rw [hp0 k (le_of_eq hk), hq0 k (by omega)]
        · have e := h k
          simp only [coeffSum, if_neg hk, if_neg (show ¬ m.exp = k by omega)] at e
          exact e
      rw [hnm, htail]

/-! ## `operator+` -/

theorem addLoop_normalized (p1 p2 : List Node) (r : Polynomial) (hr : Normalized r) :
    Normalized (addLoop p1 p2 r) := by
  induction p1, p2, r using addLoop.induct with
  | case1 r => rw [addLoop]; exact hr
  | case2 a p1 r ih => rw [addLoop]; exact ih (addTerm_normalized _ _ _ hr)
  | case3 b p2 r ih => rw [addLoop]; exact ih (addTerm_normalized _ _ _ hr)
  | case4 a p1 b p2 r h ih =>
    rw [addLoop, if_pos h]; exact ih (addTerm_normalized _ _ _ hr)
  | case5 a p1 b p2 r h1 h2 ih =>
    rw [addLoop, if_neg h1, if_pos h2]; exact ih (addTerm_normalized _ _ _ hr)
  | case6 a p1 b p2 r h1 h2 ih =>
    rw [addLoop, if_neg h1, if_neg h2]; exact ih (addTerm_normalized _ _ _ hr)

theorem coeffSum_addLoop (p1 p2 : List Node) (r : Polynomial) (k : Int) :
    coeffSum (addLoop p1 p2 r) k = coeffSum r k + coeffSum p1 k + coeffSum p2 k := by
  induction p1, p2, r using addLoop.induct with
  | case1 r => rw [addLoop]; simp [coeffSum]
  | case2 a p1 r ih =>
    rw [addLoop, ih, coeffSum_addTerm]
    simp only [coeffSum]
    split_ifs <;> omega
  | case3 b p2 r ih =>
    rw [addLoop, ih, coeffSum_addTerm]
    simp only [coeffSum]
    split_ifs <;> omega
  | case4 a p1 b p2 r h ih =>
    rw [addLoop, if_pos h, ih, coeffSum_addTerm]
    simp only [coeffSum]
    split_ifs <;> omega
  | case5 a p1 b p2 r h1 h2 ih =>
    rw [addLoop, if_neg h1, if_pos h2, ih, coeffSum_addTerm]
    simp only [coeffSum]
    split_ifs <;> omega
  | case6 a p1 b p2 r h1 h2 ih =>
    rw [addLoop, if_neg h1, if_neg h2, ih, coeffSum_addTerm]
    simp only [coeffSum]
    split_ifs <;> omega

theorem add_normalized (p q : Polynomial) : Normalized (add p q) :=
  addLoop_normalized p q _ normalized_empty

theorem coeffSum_add (p q : Polynomial) (k : Int) :
    coeffSum (add p q) k = coeffSum p k + coeffSum q k := by
  unfold add
  rw [coeffSum_addLoop]
  simp [Polynomial.empty, coeffSum]

/-! ## The copy constructor -/

theorem copyLoop_normalized (q : List Node) (r : Polynomial) (hr : Normalized r) :
    Normalized (copyLoop q r) := by
  induction q generalizing r with
  | nil => exact hr
  | cons b q ih => exact ih _ (addTerm_normalized _ _ _ hr)

theorem coeffSum_copyLoop (q : List Node) (r : Polynomial) (k : Int) :
    coeffSum (copyLoop q r) k = coeffSum r k + coeffSum q k := by
  induction q generalizing r with
  | nil => simp [copyLoop, coeffSum]
  | cons b q ih =>
    rw [copyLoop, ih, coeffSum_addTerm]
    simp only [coeffSum]
    split_ifs <;> omega

theorem copy_of_normalized (p : Polynomial) (hp : Normalized p) : copy p = p := by
  apply normalized_ext _ _ (copyLoop_normalized p _ normalized_empty) hp
  intro k
  rw [coeffSum_copyLoop]
  simp [Polynomial.empty, coeffSum]

/-! ## `operator-` -/

theorem negLoop_normalized (q : List Node) (r : Polynomial) (hr : Normalized r) :
    Normalized (negLoop q r) := by
  induction q generalizing r with
  | nil => exact hr
  | cons b q ih => exact ih _ (addTerm_normalized _ _ _ hr)

theorem coeffSum_negLoop (q : List Node) (r : Polynomial) (k : Int) :
    coeffSum (negLoop q r) k = coeffSum r k - coeffSum q k := by
  induction q generalizing r with
  | nil => simp [negLoop, coeffSum]
  | cons b q ih =>
    rw [negLoop, ih, coeffSum_addTerm]
    simp only [coeffSum]
    split_ifs <;> omega

theorem negLoop_eq_foldl (q : List Node) (r : Polynomial) :
    negLoop q r = q.foldl (fun acc n => addTerm acc (-n.coef) n.exp) r := by
  induction q generalizing r with
  | nil => rfl
  | cons b q ih => rw [negLoop, ih, List.foldl_cons]

theorem sub_normalized (p q : Polynomial) : Normalized (sub p q) :=
  add_normalized p _

theorem coeffSum_sub (p q : Polynomial) (k : Int) :
    coeffSum (sub p q) k = coeffSum p k - coeffSum q k := by
  unfold sub
  rw [coeffSum_add, coeffSum_negLoop]
  simp [Polynomial.empty, coeffSum]
  omega

/-! ## `operator*` -/

theorem rowSum_nil (a : Node) (k : Int) : rowSum a [] k = 0 := rfl

theorem rowSum_cons (a b : Node) (q : Polynomial) (k : Int) :
    rowSum a (b :: q) k
      = (if a.exp + b.exp = k then a.coef * b.coef else 0) + rowSum a q k := by
  unfold rowSum
  by_cases h : a.exp + b.exp = k
  · simp [List.filter_cons, h]
  · simp [List.filter_cons, h]

theorem pairSum_nil_left (q : Polynomial) (k : Int) : pairSum [] q k = 0 := by
  simp [pairSum, List.nil_product]

theorem pairSum_cons_left (a : Node) (p q : Polynomial) (k : Int) :
    pairSum (a :: p) q k = rowSum a q k + pairSum p q k := by
  unfold pairSum rowSum
  rw [List.product_cons, List.filter_append, List.map_append, List.sum_append,
    List.filter_map, List.map_map]
  rfl

theorem mulInner_normalized (a : Node) (q : List Node) (r : Polynomial)
    (hr : Normalized r) : Normalized (mulInner a q r) := by
  induction q generalizing r with
  | nil => exact hr
  | cons b q ih => exact ih _ (addTerm_normalized _ _ _ hr)

theorem coeffSum_mulInner (a : Node) (q : List Node) (r : Polynomial) (k : Int) :
    coeffSum (mulInner a q r) k = coeffSum r k + rowSum a q k := by
  induction q generalizing r with
  | nil => simp [mulInner, rowSum_nil]
  | cons b q ih =>
    rw [mulInner, ih, coeffSum_addTerm, rowSum_cons]
    omega

theorem mulLoop_normalized (p q : List Node) (r : Polynomial)
    (hr : Normalized r) : Normalized (mulLoop p q r) := by
  induction p generalizing r with
  | nil => exact hr
  | cons a p ih => exact ih _ (mulInner_normalized a q r hr)

theorem coeffSum_mulLoop (p q : List Node) (r : Polynomial) (k : Int) :
    coeffSum (mulLoop p q r) k = coeffSum r k + pairSum p q k := by
  induction p generalizing r with
  | nil => simp [mulLoop, pairSum_nil_left]
  | cons a p ih =>
    rw [mulLoop, ih, coeffSum_mulInner, pairSum_cons_left]
    omega

theorem mul_normalized (p q : Polynomial) : Normalized (mul p q) :=
  mulLoop_normalized p q _ normalized_empty

theorem coeffSum_mul (p q : Polynomial) (k : Int) :
    coeffSum (mul p q) k = pairSum p q k := by
  unfold mul
  rw [coeffSum_mulLoop]
  simp [Polynomial.empty, coeffSum]

theorem rowSum_eq_mul_coeffSum (a : Node) (q : Polynomial) (k : Int) :
    rowSum a q k = a.coef * coeffSum q (k - a.exp) := by
  induction q with
  | nil => simp [rowSum_nil, coeffSum]
  | cons b q ih =>
    rw [rowSum_cons, ih]
    simp only [coeffSum]
    by_cases h : a.exp + b.exp = k
    · rw [if_pos h, if_pos (by omega)]
      ring
    · rw [if_neg h, if_neg (by omega)]
      ring

theorem pairSum_cons_right (b : Node) (p q : Polynomial) (k : Int) :
    pairSum p (b :: q) k = rowSum b p k + pairSum p q k := by
  induction p with
  | nil => simp [pairSum_nil_left, rowSum_nil]
  | cons a p ih =>
    rw [pairSum_cons_left, pairSum_cons_left, ih, rowSum_cons, rowSum_cons]
    by_cases h : a.exp + b.exp = k
    · rw [if_pos h, if_pos (by omega)]
      ring
    · rw [if_neg h, if_neg (by omega)]
      ring

theorem pairSum_comm (p q : Polynomial) (k : Int) :
    pairSum p q k = pairSum q p k := by
  induction p with
  | nil =>
    induction q with
    | nil => rfl
    | cons b q ih => rw [pairSum_cons_left, rowSum_nil, ← ih, pairSum_nil_left]; rfl
  | cons a p ih => rw [pairSum_cons_left, pairSum_cons_right, ih]

theorem pairSum_congr_right (p q q' : Polynomial)
    (h : ∀ k, coeffSum q k = coeffSum q' k) (k : Int) :
    pairSum p q k = pairSum p q' k := by
  induction p with
  | nil => simp [pairSum_nil_left]
  | cons a p ih =>
    rw [pairSum_cons_left, pairSum_cons_left, ih, rowSum_eq_mul_coeffSum,
      rowSum_eq_mul_coeffSum, h]

theorem pairSum_add_right (p q r : Polynomial) (k : Int) :
    pairSum p (add q r) k = pairSum p q k + pairSum p r k := by
  induction p with
  | nil => simp [pairSum_nil_left]
  | cons a p ih =>
    rw [pairSum_cons_left, pairSum_cons_left, pairSum_cons_left, ih,
      rowSum_eq_mul_coeffSum, rowSum_eq_mul_coeffSum, rowSum_eq_mul_coeffSum,
      coeffSum_add]
    ring

/-! ## The shape of `addTerm`'s result -/

theorem filter_gt_of_all_lt (p : Polynomial) (exp : Int) (h : ∀ m ∈ p, m.exp < exp) :
    p.filter (fun n => n.exp > exp) = [] := by
  rw [List.filter_eq_nil_iff]
  intro m hm
  have := h m hm
  simp only [decide_eq_true_eq]
  omega

theorem filter_lt_of_all_lt (p : Polynomial) (exp : Int) (h : ∀ m ∈ p, m.exp < exp) :
    p.filter (fun n => n.exp < exp) = p := by
  rw [List.filter_eq_self]
  intro m hm
  have := h m hm
  simp only [decide_eq_true_eq]
  omega

theorem coeff_of_all_lt (p : Polynomial) (exp : Int) (h : ∀ m ∈ p, m.exp < exp) :
    coeff p exp = 0 := by
  induction p with
  | nil => rfl
  | cons n rest ih =>
    have hn := h n (List.mem_cons_self _ _)
    rw [coeff, if_neg (by omega)]
    exact ih (fun m hm => h m (List.mem_cons_of_mem _ hm))

theorem addTerm_cons_gt (coef exp : Int) (n : Node) (rest : List Node)
    (h : n.exp > exp) :
    addTerm (n :: rest) coef exp = n :: addTerm rest coef exp := by
  unfold addTerm
  by_cases hc : coef = 0
  · rw [if_pos hc, if_pos hc]
  · rw [if_neg hc, if_neg hc, scan_cons_gt coef exp n rest h]

theorem addTerm_eq (p : Polynomial) (coef exp : Int) (hp : Normalized p) :
    addTerm p coef exp
      = p.filter (fun n => n.exp > exp)
        ++ (if coeff p exp + coef = 0 then [] else [⟨coeff p exp + coef, exp⟩])
        ++ p.filter (fun n => n.exp < exp) := by
  induction p with
  | nil =>
    unfold addTerm
    by_cases hc : coef = 0
    · simp [hc, coeff]
    · simp [hc, coeff, scan_nil]
  | cons n rest ih =>
    obtain ⟨hd, hz⟩ := hp
    unfold Descending at hd
    rw [List.pairwise_cons] at hd
    obtain ⟨hn, hrest⟩ := hd
    have hzr : NoZero rest := fun m hm => hz m (List.mem_cons_of_mem _ hm)
    have hnz : n.coef ≠ 0 := hz n (List.mem_cons_self _ _)
    rcases lt_trichotomy n.exp exp with h | h | h
    · have hall : ∀ m ∈ n :: rest, m.exp < exp := by
        intro m hm
        rcases List.mem_cons.1 hm with rfl | hm
        · exact h
        · have := hn m hm
          omega
      rw [filter_gt_of_all_lt _ exp hall, filter_lt_of_all_lt _ exp hall,
        coeff_of_all_lt _ exp hall]
      unfold addTerm
      by_cases hc : coef = 0
      · simp [hc]
      · rw [if_neg hc, scan_cons_lt coef exp n rest h]
        simp [hc]
    · have hall : ∀ m ∈ rest, m.exp < exp := by
        intro m hm
        have := hn m hm
        omega
      have hcoeff : coeff (n :: rest) exp = n.coef := by rw [coeff, if_pos h]
      rw [List.filter_cons_of_neg (by simp only [decide_eq_true_eq]; omega),
        List.filter_cons_of_neg (by simp only [decide_eq_true_eq]; omega),
        filter_gt_of_all_lt _ exp hall, filter_lt_of_all_lt _ exp hall, hcoeff]
      unfold addTerm
      by_cases hc : coef = 0
      · subst hc
        rw [if_pos rfl, add_zero, if_neg hnz]
        cases n
        simp only at h
        subst h
        rfl
      · rw [if_neg hc]
        by_cases hs : n.coef + coef = 0
        · rw [scan_cons_eq_zero coef exp n rest h hs, if_pos hs]
          rfl
        · rw [scan_cons_eq_ne coef exp n rest h hs, if_neg hs, h]
          rfl
    · have hcoeff : coeff (n :: rest) exp = coeff rest exp := by
        rw [coeff, if_neg (by omega)]
      rw [addTerm_cons_gt coef exp n rest h, ih ⟨hrest, hzr⟩, hcoeff,
        List.filter_cons_of_pos (by simp only [decide_eq_true_eq]; omega),
        List.filter_cons_of_neg (by simp only [decide_eq_true_eq]; omega)]
      rfl

theorem scan_filter_ne (coef exp : Int) (p : Polynomial) :
    (addTerm.scan coef exp p).filter (fun n => n.exp ≠ exp)
      = p.filter (fun n => n.exp ≠ exp) := by
  induction p with
  | nil => simp [scan_nil]
  | cons n rest ih =>
    rcases lt_trichotomy n.exp exp with h | h | h
    · rw [scan_cons_lt coef exp n rest h]
      simp
    · by_cases hs : n.coef + coef = 0
      · rw [scan_cons_eq_zero coef exp n rest h hs]
        simp [h]
      · rw [scan_cons_eq_ne coef exp n rest h hs]
        simp [h]
    · rw [scan_cons_gt coef exp n rest h]
      have hne : n.exp ≠ exp := by omega
      rw [List.filter_cons_of_pos (by simpa using hne),
        List.filter_cons_of_pos (by simpa using hne), ih]

theorem addTerm_filter_ne (p : Polynomial) (coef exp : Int) :
    (addTerm p coef exp).filter (fun n => n.exp ≠ exp)
      = p.filter (fun n => n.exp ≠ exp) := by
  unfold addTerm
  by_cases hc : coef = 0
  · rw [if_pos hc]
  · rw [if_neg hc, scan_filter_ne]

theorem coeff_addTerm (p : Polynomial) (coef exp : Int) (hp : Normalized p) (k : Int) :
    coeff (addTerm p coef exp) k = coeff p k + (if exp = k then coef else 0) := by
  rw [coeff_eq_coeffSum _ (addTerm_normalized p coef exp hp).1,
    coeff_eq_coeffSum _ hp.1, coeffSum_addTerm]

/-! ## The claims -/

/-- C1 (normalization invariant).  Whatever the sequence `calls` of
`addTerm(coef, exp)` calls applied to an initially empty polynomial, the result
has strictly descending exponents, pairwise-distinct exponents and no
coefficient 0; and `addTerm` maps every normalized term sequence to a
normalized one. -/
theorem addTerm_preserves_normalization (calls : List (Int × Int))
    (p : Polynomial) (coef exp : Int) (hp : Normalized p) :
    (Descending (addTerms calls Polynomial.empty)
      ∧ DistinctExps (addTerms calls Polynomial.empty)
      ∧ NoZero (addTerms calls Polynomial.empty))
    ∧ Normalized (addTerm p coef exp) := by
  have h := addTerms_normalized calls Polynomial.empty normalized_empty
  exact ⟨⟨h.1, descending_distinctExps _ h.1, h.2⟩, addTerm_normalized p coef exp hp⟩

theorem addTerm_preserves_normalization_witness :
    Normalized [⟨3, 2⟩, ⟨2, 0⟩]
    ∧ (Descending (addTerms [(2, 0), (0, 7), (3, 2), (5, 4), (-2, 0), (1, 2)] Polynomial.empty)
      ∧ DistinctExps (addTerms [(2, 0), (0, 7), (3, 2), (5, 4), (-2, 0), (1, 2)] Polynomial.empty)
      ∧ NoZero (addTerms [(2, 0), (0, 7), (3, 2), (5, 4), (-2, 0), (1, 2)] Polynomial.empty))
    ∧ Normalized (addTerm [⟨3, 2⟩, ⟨2, 0⟩] 1 1) :=
  ⟨by decide,
    addTerm_preserves_normalization [(2, 0), (0, 7), (3, 2), (5, 4), (-2, 0), (1, 2)]
      [⟨3, 2⟩, ⟨2, 0⟩] 1 1 (by decide)⟩

/-- C2 (addition is coefficient-wise).  For normalized `p` and `q`, `p + q` is
normalized, its coefficient at every exponent `e` is the coefficient of `p` at
`e` plus the coefficient of `q` at `e`, and a term with exponent `e` is stored
exactly when that sum is not 0.  Scenario: `(3x^2 + 2) + (x - 2) = 3x^2 + x`. -/
theorem add_coefficientwise (p q : Polynomial) (hp : Normalized p)
    (hq : Normalized q) :
    Normalized (add p q)
    ∧ (∀ e, coeff (add p q) e = coeff p e + coeff q e)
    ∧ (∀ e, HasExp (add p q) e ↔ coeff p e + coeff q e ≠ 0)
    ∧ add [⟨3, 2⟩, ⟨2, 0⟩] [⟨1, 1⟩, ⟨-2, 0⟩] = [⟨3, 2⟩, ⟨1, 1⟩] := by
  have hn := add_normalized p q
  refine ⟨hn, ?_, ?_, ?_⟩
  · intro e
    rw [coeff_eq_coeffSum _ hn.1, coeff_eq_coeffSum _ hp.1, coeff_eq_coeffSum _ hq.1,
      coeffSum_add]
  · intro e
    rw [hasExp_iff_coeffSum_ne_zero _ hn, coeff_eq_coeffSum _ hp.1,
      coeff_eq_coeffSum _ hq.1, coeffSum_add]
  · simp [add, addLoop, addTerm, addTerm.scan, Polynomial.empty]

theorem add_coefficientwise_witness :
    Normalized [⟨3, 2⟩, ⟨2, 0⟩] ∧ Normalized [⟨1, 1⟩, ⟨-2, 0⟩]
    ∧ Normalized (add [⟨3, 2⟩, ⟨2, 0⟩] [⟨1, 1⟩, ⟨-2, 0⟩])
    ∧ (∀ e, coeff (add [⟨3, 2⟩, ⟨2, 0⟩] [⟨1, 1⟩, ⟨-2, 0⟩]) e
        = coeff [⟨3, 2⟩, ⟨2, 0⟩] e + coeff [⟨1, 1⟩, ⟨-2, 0⟩] e)
    ∧ (∀ e, HasExp (add [⟨3, 2⟩, ⟨2, 0⟩] [⟨1, 1⟩, ⟨-2, 0⟩]) e
        ↔ coeff [⟨3, 2⟩, ⟨2, 0⟩] e + coeff [⟨1, 1⟩, ⟨-2, 0⟩] e ≠ 0)
    ∧ add [⟨3, 2⟩, ⟨2, 0⟩] [⟨1, 1⟩, ⟨-2, 0⟩] = [⟨3, 2⟩, ⟨1, 1⟩] :=
  ⟨by decide, by decide,
    add_coefficientwise [⟨3, 2⟩, ⟨2, 0⟩] [⟨1, 1⟩, ⟨-2, 0⟩] (by decide) (by decide)⟩

/-- C3 (multiplication is full distribution).  `p * q` is normalized, its
coefficient at every exponent `k` is the sum of `c1 * c2` over all pairs of a
term `(c1, e1)` of `p` and a term `(c2, e2)` of `q` with `e1 + e2 = k`, and a
term with exponent `k` is stored exactly when that sum is not 0.  This holds
for all term sequences `p` and `q`, normalized ones in particular. -/
theorem mul_full_distribution (p q : Polynomial) :
    Normalized (mul p q)
    ∧ (∀ k, coeff (mul p q) k = pairSum p q k)
    ∧ (∀ k, HasExp (mul p q) k ↔ pairSum p q k ≠ 0) := by
  have hn := mul_normalized p q
  refine ⟨hn, ?_, ?_⟩
  · intro k
    rw [coeff_eq_coeffSum _ hn.1, coeffSum_mul]
  · intro k
    rw [hasExp_iff_coeffSum_ne_zero _ hn, coeffSum_mul]

/-- C4 (`addTerm` is a point update).  For normalized `p`, after
`addTerm(coef, exp)` the coefficient at `exp` is the old one plus `coef` and
every other coefficient is unchanged; the result is normalized and consists of
the old terms with a greater exponent, then the term with exponent `exp` unless
its new coefficient is 0, then the old terms with a smaller exponent; the
stored terms at the other exponents are the same, in the same order; and
`addTerm(0, exp)` changes nothing (`addTerm(0, 5)` leaves the empty polynomial
empty). -/
theorem addTerm_point_update (p : Polynomial) (coef exp : Int) (hp : Normalized p) :
    coeff (addTerm p coef exp) exp = coeff p exp + coef
    ∧ (∀ k, k ≠ exp → coeff (addTerm p coef exp) k = coeff p k)
    ∧ (HasExp (addTerm p coef exp) exp ↔ coeff p exp + coef ≠ 0)
    ∧ Normalized (addTerm p coef exp)
    ∧ addTerm p coef exp
        = p.filter (fun n => n.exp > exp)
          ++ (if coeff p exp + coef = 0 then [] else [⟨coeff p exp + coef, exp⟩])
          ++ p.filter (fun n => n.exp < exp)
    ∧ (addTerm p coef exp).filter (fun n => n.exp ≠ exp)
        = p.filter (fun n => n.exp ≠ exp)
    ∧ addTerm p 0 exp = p
    ∧ addTerm Polynomial.empty 0 5 = Polynomial.empty := by
  have hn := addTerm_normalized p coef exp hp
  refine ⟨?_, ?_, ?_, hn, addTerm_eq p coef exp hp, addTerm_filter_ne p coef exp,
    rfl, rfl⟩
  · rw [coeff_addTerm p coef exp hp, if_pos rfl]
  · intro k hk
    rw [coeff_addTerm p coef exp hp, if_neg (fun h => hk h.symm), add_zero]
  · rw [hasExp_iff_coeffSum_ne_zero _ hn, coeffSum_addTerm, if_pos rfl,
      coeff_eq_coeffSum _ hp.1]

theorem addTerm_point_update_witness :
    Normalized [⟨3, 2⟩, ⟨2, 0⟩]
    ∧ coeff (addTerm [⟨3, 2⟩, ⟨2, 0⟩] (-2) 0) 0 = coeff [⟨3, 2⟩, ⟨2, 0⟩] 0 + (-2)
    ∧ addTerm [⟨3, 2⟩, ⟨2, 0⟩] (-2) 0 = [⟨3, 2⟩]
    ∧ addTerm [⟨3, 2⟩, ⟨2, 0⟩] 4 1 = [⟨3, 2⟩, ⟨4, 1⟩, ⟨2, 0⟩] :=
  ⟨by decide, (addTerm_point_update [⟨3, 2⟩, ⟨2, 0⟩] (-2) 0 (by decide)).1,
    by decide, by decide⟩

/-- C5 (subtraction is `this + negate(other)`).  `p - q` is exactly `p + n`
where `n` is built by `addTerm(-coef, exp)` for each term of `q`; for
normalized `p` and `q` the result is normalized and its coefficient at every
exponent `e` is the coefficient of `p` at `e` minus that of `q`.  Scenario:
`(3x^2 + 2) - (x - 2) = 3x^2 - x + 4`. -/
theorem sub_is_add_negate (p q : Polynomial) (hp : Normalized p)
    (hq : Normalized q) :
    sub p q = add p (negate q)
    ∧ Normalized (sub p q)
    ∧ (∀ e, coeff (sub p q) e = coeff p e - coeff q e)
    ∧ sub [⟨3, 2⟩, ⟨2, 0⟩] [⟨1, 1⟩, ⟨-2, 0⟩] = [⟨3, 2⟩, ⟨-1, 1⟩, ⟨4, 0⟩] := by
  have hn := sub_normalized p q
  refine ⟨?_, hn, ?_, ?_⟩
  · unfold sub negate addTerms
    rw [negLoop_eq_foldl, List.foldl_map]
  · intro e
    rw [coeff_eq_coeffSum _ hn.1, coeff_eq_coeffSum _ hp.1, coeff_eq_coeffSum _ hq.1,
      coeffSum_sub]
  · simp [sub, negLoop, add, addLoop, addTerm, addTerm.scan, Polynomial.empty]

theorem sub_is_add_negate_witness :
    Normalized [⟨3, 2⟩, ⟨2, 0⟩] ∧ Normalized [⟨1, 1⟩, ⟨-2, 0⟩]
    ∧ sub [⟨3, 2⟩, ⟨2, 0⟩] [⟨1, 1⟩, ⟨-2, 0⟩]
        = add [⟨3, 2⟩, ⟨2, 0⟩] (negate [⟨1, 1⟩, ⟨-2, 0⟩])
    ∧ Normalized (sub [⟨3, 2⟩, ⟨2, 0⟩] [⟨1, 1⟩, ⟨-2, 0⟩])
    ∧ (∀ e, coeff (sub [⟨3, 2⟩, ⟨2, 0⟩] [⟨1, 1⟩, ⟨-2, 0⟩]) e
        = coeff [⟨3, 2⟩, ⟨2, 0⟩] e - coeff [⟨1, 1⟩, ⟨-2, 0⟩] e)
    ∧ sub [⟨3, 2⟩, ⟨2, 0⟩] [⟨1, 1⟩, ⟨-2, 0⟩] = [⟨3, 2⟩, ⟨-1, 1⟩, ⟨4, 0⟩] :=
  ⟨by decide, by decide,
    sub_is_add_negate [⟨3, 2⟩, ⟨2, 0⟩] [⟨1, 1⟩, ⟨-2, 0⟩] (by decide) (by decide)⟩

/-- C6 (additive identity).  For every normalized `p` and the empty (zero)
polynomial, `p + zero` and `zero + p` both have the term sequence of `p`. -/
theorem add_zero_identity (p : Polynomial) (hp : Normalized p) :
    add p Polynomial.empty = p ∧ add Polynomial.empty p = p := by
  constructor
  · apply normalized_ext _ _ (add_normalized _ _) hp
    intro k
    rw [coeffSum_add]
    simp [Polynomial.empty, coeffSum]
  · apply normalized_ext _ _ (add_normalized _ _) hp
    intro k
    rw [coeffSum_add]
    simp [Polynomial.empty, coeffSum]

theorem add_zero_identity_witness :
    Normalized [⟨3, 2⟩, ⟨-1, 1⟩, ⟨4, 0⟩]
    ∧ add [⟨3, 2⟩, ⟨-1, 1⟩, ⟨4, 0⟩] Polynomial.empty = [⟨3, 2⟩, ⟨-1, 1⟩, ⟨4, 0⟩]
    ∧ add Polynomial.empty [⟨3, 2⟩, ⟨-1, 1⟩, ⟨4, 0⟩] = [⟨3, 2⟩, ⟨-1, 1⟩, ⟨4, 0⟩] :=
  ⟨by decide, add_zero_identity [⟨3, 2⟩, ⟨-1, 1⟩, ⟨4, 0⟩] (by decide)⟩

/-- C7 (additive inverse).  `p - p` is the zero polynomial: its term sequence
is empty.  This holds for every term sequence `p`, normalized ones in
particular. -/
theorem sub_self_is_zero (p : Polynomial) : sub p p = Polynomial.empty := by
  apply normalized_ext _ _ (sub_normalized p p) normalized_empty
  intro k
  rw [coeffSum_sub]
  simp [Polynomial.empty, coeffSum]

/-- C8 (commutativity of addition).  `p + q` and `q + p` have the same term
sequence.  This holds for all term sequences, normalized ones in
particular. -/
theorem add_commutative (p q : Polynomial) : add p q = add q p := by
  apply normalized_ext _ _ (add_normalized p q) (add_normalized q p)
  intro k
  rw [coeffSum_add, coeffSum_add]
  omega

/-- C9 (commutativity of multiplication).  `p * q` and `q * p` have the same
term sequence, although the two calls hand the partial products to `addTerm`
in different orders.  This holds for all term sequences, normalized ones in
particular. -/
theorem mul_commutative (p q : Polynomial) : mul p q = mul q p := by
  apply normalized_ext _ _ (mul_normalized p q) (mul_normalized q p)
  intro k
  rw [coeffSum_mul, coeffSum_mul, pairSum_comm]

/-- C10 (distributivity).  `p * (q + r)` has the same term sequence as
`(p * q) + (p * r)`.  This holds for all term sequences, normalized ones in
particular. -/
theorem mul_distributes_over_add (p q r : Polynomial) :
    mul p (add q r) = add (mul p q) (mul p r) := by
  apply normalized_ext _ _ (mul_normalized _ _) (add_normalized _ _)
  intro k
  rw [coeffSum_mul, coeffSum_add, coeffSum_mul, coeffSum_mul, pairSum_add_right]

/-! ## Sequences of `addTerm` calls -/

theorem callSum_nil (k : Int) : callSum [] k = 0 := rfl

theorem callSum_cons (c : Int × Int) (calls : List (Int × Int)) (k : Int) :
    callSum (c :: calls) k = (if c.2 = k then c.1 else 0) + callSum calls k := by
  unfold callSum
  by_cases h : c.2 = k
  · simp [List.filter_cons, h]
  · simp [List.filter_cons, h]

theorem coeffSum_addTerms (calls : List (Int × Int)) (r : Polynomial) (k : Int) :
    coeffSum (addTerms calls r) k = coeffSum r k + callSum calls k := by
  induction calls generalizing r with
  | nil => simp [addTerms, callSum_nil]
  | cons c calls ih =>
    have h : addTerms (c :: calls) r = addTerms calls (addTerm r c.1 c.2) := rfl
    rw [h, ih, coeffSum_addTerm, callSum_cons]
    omega

theorem callSum_perm (l1 l2 : List (Int × Int)) (h : l1.Perm l2) (k : Int) :
    callSum l1 k = callSum l2 k := by
  unfold callSum
  exact ((h.filter _).map _).sum_eq

/-! ## The leading term of a product -/

theorem pairSum_eq_zero (p q : Polynomial) (k : Int)
    (h : ∀ a ∈ p, ∀ b ∈ q, a.exp + b.exp ≠ k) : pairSum p q k = 0 := by
  induction p with
  | nil => exact pairSum_nil_left q k
  | cons a p ih =>
    rw [pairSum_cons_left, ih (fun a' ha' => h a' (List.mem_cons_of_mem _ ha')),
      rowSum_eq_mul_coeffSum, add_zero]
    have hz : coeffSum q (k - a.exp) = 0 := by
      apply coeffSum_eq_zero_of_not_hasExp
      rintro ⟨b, hb, e⟩
      exact h a (List.mem_cons_self _ _) b hb (by omega)
    rw [hz, mul_zero]

theorem pairSum_heads (a b : Node) (p q : List Node)
    (hp : Descending (a :: p)) (hq : Descending (b :: q)) :
    pairSum (a :: p) (b :: q) (a.exp + b.exp) = a.coef * b.coef := by
  unfold Descending at hp hq
  rw [List.pairwise_cons] at hp hq
  have h1 : pairSum p (b :: q) (a.exp + b.exp) = 0 := by
    apply pairSum_eq_zero
    intro a' ha' b' hb'
    have := hp.1 a' ha'
    rcases List.mem_cons.1 hb' with rfl | hb'
    · omega
    · have := hq.1 b' hb'
      omega
  have h2 : rowSum a q (a.exp + b.exp) = 0 := by
    rw [rowSum_eq_mul_coeffSum]
    have hz : coeffSum q (a.exp + b.exp - a.exp) = 0 := by
      apply coeffSum_eq_zero_of_not_hasExp
      rintro ⟨b', hb', e⟩
      have := hq.1 b' hb'
      omega
    rw [hz, mul_zero]
  rw [pairSum_cons_left, h1, rowSum_cons, if_pos rfl, h2]
  ring

theorem pairSum_above_heads (a b : Node) (p q : List Node)
    (hp : Descending (a :: p)) (hq : Descending (b :: q)) (k : Int)
    (hk : a.exp + b.exp < k) : pairSum (a :: p) (b :: q) k = 0 := by
  unfold Descending at hp hq
  rw [List.pairwise_cons] at hp hq
  apply pairSum_eq_zero
  intro a' ha' b' hb'
  have h1 : a'.exp ≤ a.exp := by
    rcases List.mem_cons.1 ha' with rfl | ha'
    · exact le_rfl
    · exact le_of_lt (hp.1 a' ha')
  have h2 : b'.exp ≤ b.exp := by
    rcases List.mem_cons.1 hb' with rfl | hb'
    · exact le_rfl
    · exact le_of_lt (hq.1 b' hb')
  omega

/-- A normalized sequence whose coefficient at `k` is `c ≠ 0` and whose
coefficients above `k` are all 0 starts with the term `(c, k)`. -/
theorem head_of_top_coeff (r : Polynomial) (hr : Normalized r) (c k : Int)
    (hc : c ≠ 0) (hk : coeffSum r k = c) (habove : ∀ j, k < j → coeffSum r j = 0) :
    r.head? = some ⟨c, k⟩ := by
  cases r with
  | nil =>
    exfalso
    simp only [coeffSum] at hk
    exact hc hk.symm
  | cons n rest =>
    have hd := hr.1
    unfold Descending at hd
    rw [List.pairwise_cons] at hd
    have hrest0 : ∀ j, n.exp ≤ j → coeffSum rest j = 0 := fun j hj =>
      coeffSum_eq_zero_of_not_hasExp rest j
        (not_hasExp_of_lt rest j (fun x hx => by have := hd.1 x hx; omega))
    have hn : coeffSum (n :: rest) n.exp = n.coef := by
      simp only [coeffSum, if_true, hrest0 n.exp le_rfl, add_zero]
    have hnz : n.coef ≠ 0 := hr.2 n (List.mem_cons_self _ _)
    have hle : n.exp ≤ k := by
      by_contra hlt
      exact hnz (hn ▸ habove n.exp (by omega))
    have hge : k ≤ n.exp := by
      by_contra hlt
      have hne : ¬ n.exp = k := by omega
      have : coeffSum (n :: rest) k = 0 := by
        simp only [coeffSum, if_neg hne]
        exact coeffSum_eq_zero_of_not_hasExp rest k
          (not_hasExp_of_lt rest k (fun x hx => by have := hd.1 x hx; omega))
      exact hc (hk ▸ this)
    have hexp : n.exp = k := le_antisymm hle hge
    have hcoef : n.coef = c := by rw [← hn, hexp, hk]
    cases n
    simp only at hexp hcoef
    subst hexp hcoef
    rfl

/-- C16 (`addTerm` cancellation).  For normalized `p`, `addTerm(coef, exp)`
followed by `addTerm(-coef, exp)` gives back the term sequence of `p`; in
particular `addTerm(5, 3)` then `addTerm(-5, 3)` leaves the empty polynomial
empty. -/
theorem addTerm_cancel (p : Polynomial) (coef exp : Int) (hp : Normalized p) :
    addTerm (addTerm p coef exp) (-coef) exp = p
    ∧ addTerm (addTerm Polynomial.empty 5 3) (-5) 3 = Polynomial.empty := by
  refine ⟨?_, by decide⟩
  apply normalized_ext _ _
    (addTerm_normalized _ _ _ (addTerm_normalized _ _ _ hp)) hp
  intro k
  rw [coeffSum_addTerm, coeffSum_addTerm]
  split_ifs <;> omega

theorem addTerm_cancel_witness :
    Normalized [⟨3, 2⟩, ⟨2, 0⟩]
    ∧ addTerm (addTerm [⟨3, 2⟩, ⟨2, 0⟩] (-2) 0) 2 0 = [⟨3, 2⟩, ⟨2, 0⟩]
    ∧ addTerm (addTerm Polynomial.empty 5 3) (-5) 3 = Polynomial.empty :=
  ⟨by decide, addTerm_cancel [⟨3, 2⟩, ⟨2, 0⟩] (-2) 0 (by decide)⟩

/-- C17, as stated: the product of `3x^2 + 2` and `x - 2` does not begin with
the terms `(3,3), (-5,2), (-2,1)`. -/
theorem product_scenario_counterexample :
    ¬ ((mul [⟨3, 2⟩, ⟨2, 0⟩] [⟨1, 1⟩, ⟨-2, 0⟩]).take 3
        = [⟨3, 3⟩, ⟨-5, 2⟩, ⟨-2, 1⟩]) := by
  decide

/-- C17, amended: the product of `3x^2 + 2` and `x - 2` is
`3x^3 - 6x^2 + 2x - 4`: its term sequence is `(3,3), (-6,2), (2,1), (-4,0)`,
which is what the distribution rule gives. -/
theorem product_scenario :
    mul [⟨3, 2⟩, ⟨2, 0⟩] [⟨1, 1⟩, ⟨-2, 0⟩] = [⟨3, 3⟩, ⟨-6, 2⟩, ⟨2, 1⟩, ⟨-4, 0⟩]
    ∧ (∀ k, coeff (mul [⟨3, 2⟩, ⟨2, 0⟩] [⟨1, 1⟩, ⟨-2, 0⟩]) k
        = pairSum [⟨3, 2⟩, ⟨2, 0⟩] [⟨1, 1⟩, ⟨-2, 0⟩] k) :=
  ⟨by decide, (fun k => by
    rw [coeff_eq_coeffSum _ (mul_normalized _ _).1, coeffSum_mul])⟩

/-- C19 (leading term of a product).  For non-empty normalized `p` and `q`
with first terms `a` and `b`, `p * q` is not empty and its first term is
`(a.coef * b.coef, a.exp + b.exp)`; hence a product of normalized polynomials
is the zero polynomial only if one of the factors is. -/
theorem mul_leading_term (p q : Polynomial) (a b : Node) (hp : Normalized p)
    (hq : Normalized q) (ha : p.head? = some a) (hb : q.head? = some b) :
    mul p q ≠ Polynomial.empty
    ∧ (mul p q).head? = some ⟨a.coef * b.coef, a.exp + b.exp⟩
    ∧ (∀ p' q' : Polynomial, Normalized p' → Normalized q' →
        mul p' q' = Polynomial.empty →
        p' = Polynomial.empty ∨ q' = Polynomial.empty) := by
  have key : ∀ (p q : Polynomial) (a b : Node), Normalized p → Normalized q →
      p.head? = some a → q.head? = some b →
      (mul p q).head? = some ⟨a.coef * b.coef, a.exp + b.exp⟩ := by
    intro p q a b hp hq ha hb
    cases p with
    | nil => cases ha
    | cons a' p' =>
      cases q with
      | nil => cases hb
      | cons b' q' =>
        simp only [List.head?_cons, Option.some.injEq] at ha hb
        subst ha hb
        apply head_of_top_coeff _ (mul_normalized _ _)
        · exact mul_ne_zero (hp.2 _ (List.mem_cons_self _ _))
            (hq.2 _ (List.mem_cons_self _ _))
        · rw [coeffSum_mul, pairSum_heads _ _ _ _ hp.1 hq.1]
        · intro j hj
          rw [coeffSum_mul, pairSum_above_heads _ _ _ _ hp.1 hq.1 j hj]
  have h1 := key p q a b hp hq ha hb
  refine ⟨?_, h1, ?_⟩
  · intro h0
    rw [h0] at h1
    cases h1
  · intro p' q' hp' hq' h0
    cases p' with
    | nil => left; rfl
    | cons a' p'' =>
      cases q' with
      | nil => right; rfl
      | cons b' q'' =>
        exfalso
        have h2 := key _ _ a' b' hp' hq' rfl rfl
        rw [h0] at h2
        cases h2

theorem mul_leading_term_witness :
    Normalized [⟨3, 2⟩, ⟨2, 0⟩] ∧ Normalized [⟨1, 1⟩, ⟨-2, 0⟩]
    ∧ (mul [⟨3, 2⟩, ⟨2, 0⟩] [⟨1, 1⟩, ⟨-2, 0⟩]).head? = some ⟨3 * 1, 2 + 1⟩ :=
  ⟨by decide, by decide,
    (mul_leading_term [⟨3, 2⟩, ⟨2, 0⟩] [⟨1, 1⟩, ⟨-2, 0⟩] ⟨3, 2⟩ ⟨1, 1⟩
      (by decide) (by decide) rfl rfl).2.1⟩

/-! ## `Evaluate` -/

theorem EvaluateLoop_eq (x : ℚ) (p : List Node) (r : ℚ) :
    EvaluateLoop x p r = r + evalSum p x := by
  induction p generalizing r with
  | nil => simp [EvaluateLoop, evalSum]
  | cons n rest ih =>
    rw [EvaluateLoop, ih]
    simp only [evalSum, List.map_cons, List.sum_cons]
    ring

theorem Evaluate_eq_evalSum (p : Polynomial) (x : ℚ) : Evaluate p x = evalSum p x := by
  unfold Evaluate
  rw [EvaluateLoop_eq, zero_add]

theorem evalSum_cons (n : Node) (rest : List Node) (x : ℚ) :
    evalSum (n :: rest) x = (n.coef : ℚ) * x ^ n.exp + evalSum rest x := by
  simp only [evalSum, List.map_cons, List.sum_cons]

theorem evalSum_scan (coef exp : Int) (p : Polynomial) (x : ℚ) :
    evalSum (addTerm.scan coef exp p) x = evalSum p x + (coef : ℚ) * x ^ exp := by
  induction p with
  | nil => simp [scan_nil, evalSum]
  | cons n rest ih =>
    rcases lt_trichotomy n.exp exp with h | h | h
    · rw [scan_cons_lt coef exp n rest h]
      simp only [evalSum_cons]
      ring
    · by_cases hz : n.coef + coef = 0
      · rw [scan_cons_eq_zero coef exp n rest h hz, evalSum_cons, h]
        have hq : (n.coef : ℚ) + (coef : ℚ) = 0 := by exact_mod_cast hz
        linear_combination (-(x ^ exp)) * hq
      · rw [scan_cons_eq_ne coef exp n rest h hz]
        simp only [evalSum_cons, h]
        push_cast
        ring
    · rw [scan_cons_gt coef exp n rest h]
      simp only [evalSum_cons, ih]
      ring

theorem evalSum_addTerm (p : Polynomial) (coef exp : Int) (x : ℚ) :
    evalSum (addTerm p coef exp) x = evalSum p x + (coef : ℚ) * x ^ exp := by
  unfold addTerm
  by_cases h : coef = 0
  · simp [h]
  · rw [if_neg h, evalSum_scan]

theorem evalSum_addLoop (p1 p2 : List Node) (r : Polynomial) (x : ℚ) :
    evalSum (addLoop p1 p2 r) x = evalSum r x + evalSum p1 x + evalSum p2 x := by
  induction p1, p2, r using addLoop.induct with
  | case1 r => rw [addLoop]; simp [evalSum]
  | case2 a p1 r ih =>
    rw [addLoop, ih, evalSum_addTerm, evalSum_cons]
    simp only [evalSum, List.map_nil, List.sum_nil]
    ring
  | case3 b p2 r ih =>
    rw [addLoop, ih, evalSum_addTerm, evalSum_cons]
    simp only [evalSum, List.map_nil, List.sum_nil]
    ring
  | case4 a p1 b p2 r h ih =>
    rw [addLoop, if_pos h, ih, evalSum_addTerm]
    simp only [evalSum_cons]
    ring
  | case5 a p1 b p2 r h1 h2 ih =>
    rw [addLoop, if_neg h1, if_pos h2, ih, evalSum_addTerm]
    simp only [evalSum_cons]
    ring
  | case6 a p1 b p2 r h1 h2 ih =>
    have he : b.exp = a.exp := by omega
    rw [addLoop, if_neg h1, if_neg h2, ih, evalSum_addTerm]
    simp only [evalSum_cons, he]
    push_cast
    ring

theorem evalSum_zero (p : Polynomial) (hexp : ∀ n ∈ p, 0 ≤ n.exp) :
    evalSum p 0 = ((coeffSum p 0 : Int) : ℚ) := by
  induction p with
  | nil => simp [evalSum, coeffSum]
  | cons n rest ih =>
    have hn := hexp n (List.mem_cons_self _ _)
    rw [evalSum_cons, ih (fun m hm => hexp m (List.mem_cons_of_mem _ hm))]
    by_cases h : n.exp = 0
    · simp [coeffSum, h]
    · simp [coeffSum, h, zero_zpow]

/-- C13 (copy preserves terms).  For a normalized source object `other` and a
distinct destination `self`, the copy constructor and the assignment operator
leave in `self` exactly the term sequence of `other`, and an `addTerm` on the
copy afterwards leaves the term sequence of `other` unchanged; self-assignment
changes nothing. -/
theorem copy_preserves_terms (s : Store) (self other : Nat) (coef exp : Int)
    (hp : Normalized (s other)) (hne : self ≠ other) :
    copy (s other) = s other
    ∧ copyConstruct s self other self = s other
    ∧ assign s self other self = s other
    ∧ addTermAt (copyConstruct s self other) self coef exp other = s other
    ∧ addTermAt (assign s self other) self coef exp other = s other
    ∧ assign s other other = s := by
  have hc : copy (s other) = s other := copy_of_normalized _ hp
  have hne' : other ≠ self := fun h => hne h.symm
  refine ⟨hc, ?_, ?_, ?_, ?_, ?_⟩
  · simp only [copyConstruct, Store.set, if_true, hc]
  · simp only [assign, Store.set, clear, ne_eq, hne, not_false_eq_true, if_true]
    exact hc
  · simp only [addTermAt, copyConstruct, Store.set, if_neg hne']
  · simp only [addTermAt, assign, Store.set, ne_eq, hne, not_false_eq_true, if_true,
      if_neg hne']
  · simp only [assign, ne_eq, not_true_eq_false, if_false]

theorem copy_preserves_terms_witness :
    Normalized ((fun o => if o = 0 then [⟨3, 2⟩, ⟨2, 0⟩] else [⟨7, 1⟩] : Store) 0)
    ∧ (1 : Nat) ≠ 0
    ∧ copy [⟨3, 2⟩, ⟨2, 0⟩] = [⟨3, 2⟩, ⟨2, 0⟩]
    ∧ assign (fun o => if o = 0 then [⟨3, 2⟩, ⟨2, 0⟩] else [⟨7, 1⟩]) 1 0 1
        = [⟨3, 2⟩, ⟨2, 0⟩]
    ∧ addTermAt (assign (fun o => if o = 0 then [⟨3, 2⟩, ⟨2, 0⟩] else [⟨7, 1⟩]) 1 0)
        1 5 4 0 = [⟨3, 2⟩, ⟨2, 0⟩] :=
  have h := copy_preserves_terms
    (fun o => if o = 0 then [⟨3, 2⟩, ⟨2, 0⟩] else [⟨7, 1⟩]) 1 0 5 4
    (by decide) (by decide)
  ⟨by decide, by decide, h.1, h.2.2.1, h.2.2.2.2.1⟩

/-- C14 (evaluation linearity).  Over exact rational arithmetic,
`(p + q).Evaluate(x) = p.Evaluate(x) + q.Evaluate(x)` for every `x`, where
`Evaluate` is the sum of `coef_i * x^exp_i` over the stored terms.  This holds
for all term sequences `p` and `q`, normalized ones in particular. -/
theorem Evaluate_add (p q : Polynomial) (x : ℚ) :
    Evaluate (add p q) x = Evaluate p x + Evaluate q x
    ∧ Evaluate p x = evalSum p x := by
  refine ⟨?_, Evaluate_eq_evalSum p x⟩
  rw [Evaluate_eq_evalSum, Evaluate_eq_evalSum, Evaluate_eq_evalSum]
  unfold add
  rw [evalSum_addLoop]
  simp [Polynomial.empty, evalSum]


/-! ## Decimal digits -/

theorem digitChar_spec :
    ∀ m, m < 10 → (Nat.digitChar m).isDigit = true ∧ (Nat.digitChar m).toNat - 48 = m := by
  decide

theorem digitsVal_append_singleton (ds : List Char) (d : Char) :
    digitsVal (ds ++ [d]) = 10 * digitsVal ds + (d.toNat - 48) := by
  simp [digitsVal, List.foldl_append]

theorem toDigitsCore_spec (fuel n : Nat) (acc : List Char) (h : n < fuel) :
    ∃ ds, Nat.toDigitsCore 10 fuel n acc = ds ++ acc ∧ ds ≠ [] ∧ AllDigits ds
      ∧ digitsVal ds = n := by
  induction fuel generalizing n acc with
  | zero => omega
  | succ fuel ih =>
    have hd := digitChar_spec (n % 10) (Nat.mod_lt _ (by decide))
    by_cases h0 : n / 10 = 0
    · refine ⟨[Nat.digitChar (n % 10)], ?_, by simp, ?_, ?_⟩
      · simp [Nat.toDigitsCore, h0]
      · intro c hc
        rw [List.mem_singleton] at hc
        rw [hc]; exact hd.1
      · have : digitsVal [Nat.digitChar (n % 10)] = (Nat.digitChar (n % 10)).toNat - 48 := by
          simp [digitsVal]
        rw [this, hd.2]
        omega
    · obtain ⟨ds, h1, _, h3, h4⟩ := ih (n / 10) (Nat.digitChar (n % 10) :: acc) (by omega)
      refine ⟨ds ++ [Nat.digitChar (n % 10)], ?_, by simp, ?_, ?_⟩
      · simp [Nat.toDigitsCore, h0, h1]
      · intro c hc
        rcases List.mem_append.1 hc with hc | hc
        · exact h3 c hc
        · rw [List.mem_singleton] at hc
          rw [hc]; exact hd.1
      · rw [digitsVal_append_singleton, h4, hd.2]
        omega

theorem putNat_spec (n : Nat) :
    putNat n ≠ [] ∧ AllDigits (putNat n) ∧ digitsVal (putNat n) = n := by
  obtain ⟨ds, h1, h2, h3, h4⟩ := toDigitsCore_spec (n + 1) n [] (Nat.lt_succ_self n)
  have : putNat n = ds := by
    unfold putNat Nat.toDigits
    rw [h1, List.append_nil]
  rw [this]
  exact ⟨h2, h3, h4⟩

theorem takeDigits_append (ds r : List Char) (hds : AllDigits ds) (hr : StopsDigits r) :
    takeDigits (ds ++ r) = (ds, r) := by
  induction ds with
  | nil =>
    cases r with
    | nil => rfl
    | cons c t =>
      have hc : c.isDigit = false := hr c rfl
      simp [takeDigits, hc]
  | cons d ds ih =>
    have hd : d.isDigit = true := hds d (List.mem_cons_self _ _)
    have ih' := ih (fun c hc => hds c (List.mem_cons_of_mem _ hc))
    simp [takeDigits, hd, ih']

theorem digits_append_inj (ds1 ds2 r1 r2 : List Char) (h1 : AllDigits ds1)
    (h2 : AllDigits ds2) (hr1 : StopsDigits r1) (hr2 : StopsDigits r2)
    (h : ds1 ++ r1 = ds2 ++ r2) : ds1 = ds2 ∧ r1 = r2 := by
  have e1 := takeDigits_append ds1 r1 h1 hr1
  have e2 := takeDigits_append ds2 r2 h2 hr2
  rw [h, e2] at e1
  simp only [Prod.mk.injEq] at e1
  exact ⟨e1.1.symm, e1.2.symm⟩

theorem putNat_append_inj (a b : Nat) (r1 r2 : List Char) (hr1 : StopsDigits r1)
    (hr2 : StopsDigits r2) (h : putNat a ++ r1 = putNat b ++ r2) : a = b ∧ r1 = r2 := by
  obtain ⟨h1, h2⟩ := digits_append_inj _ _ _ _ (putNat_spec a).2.1 (putNat_spec b).2.1
    hr1 hr2 h
  refine ⟨?_, h2⟩
  rw [← (putNat_spec a).2.2, ← (putNat_spec b).2.2, h1]

theorem putInt_of_nonneg (v : Int) (h : 0 ≤ v) : putInt v = putNat v.natAbs := by
  unfold putInt
  rw [if_neg (by omega)]

theorem putInt_abs (v : Int) : putInt |v| = putNat v.natAbs := by
  rw [putInt_of_nonneg _ (abs_nonneg v), Int.natAbs_abs]

theorem stopsDigits_nil : StopsDigits [] := by
  intro c hc
  cases hc

theorem stopsDigits_cons (c : Char) (t : List Char) (h : c.isDigit = false) :
    StopsDigits (c :: t) := by
  intro d hd
  simp only [List.head?_cons, Option.some.injEq] at hd
  rw [← hd]; exact h

/-! ## `operator<<` -/

theorem termOut_eq_termText (first : Bool) (t : Node) (ht : t.coef ≠ 0) :
    termOut first t = termText first t := by
  unfold termOut termText
  rw [putInt_abs]
  rcases lt_or_gt_of_ne ht with h | h
  · have h' : ¬ t.coef > 0 := by omega
    by_cases he : t.exp = 0 <;> simp [h, h', he]
  · have h' : ¬ t.coef < 0 := by omega
    by_cases he : t.exp = 0 <;> cases first <;> simp [h, h', he]

theorem outLoop_false_eq (p : Polynomial) (hp : NoZero p) :
    outLoop p false = (p.map (termText false)).flatten := by
  induction p with
  | nil => rfl
  | cons t rest ih =>
    rw [outLoop, termOut_eq_termText false t (hp t (List.mem_cons_self _ _)),
      ih (fun m hm => hp m (List.mem_cons_of_mem _ hm))]
    simp

theorem streamOut_eq_formatText (p : Polynomial) (hp : NoZero p) :
    streamOut p = formatText p := by
  cases p with
  | nil => rfl
  | cons t rest =>
    unfold streamOut
    rw [outLoop, termOut_eq_termText true t (hp t (List.mem_cons_self _ _)),
      outLoop_false_eq rest (fun m hm => hp m (List.mem_cons_of_mem _ hm))]
    rfl

/-- C12 (serialization format).  For every polynomial the class can hold (no
stored coefficient is 0; in particular for every result of a sequence of
`addTerm` calls) the text written by `operator<<` is the concatenation, over
the stored terms in stored order, of the separator, the decimal absolute
value of the coefficient, and `x^` with the decimal exponent when the exponent
is not 0.  The zero polynomial gives the empty text, `{(1,0)}` gives `1` and
`{(-1,1)}` gives ` - 1x^1`. -/
theorem streamOut_format (calls : List (Int × Int)) (p : Polynomial) (hp : NoZero p) :
    streamOut p = formatText p
    ∧ streamOut (addTerms calls Polynomial.empty)
        = formatText (addTerms calls Polynomial.empty)
    ∧ streamOut Polynomial.empty = []
    ∧ streamOut [⟨1, 0⟩] = ['1']
    ∧ streamOut [⟨-1, 1⟩] = [' ', '-', ' ', '1', 'x', '^', '1'] :=
  ⟨streamOut_eq_formatText p hp,
    streamOut_eq_formatText _ (addTerms_normalized calls _ normalized_empty).2,
    by decide, by decide, by decide⟩

theorem streamOut_format_witness :
    NoZero [⟨3, 2⟩, ⟨-12, 10⟩, ⟨2, 0⟩]
    ∧ streamOut [⟨3, 2⟩, ⟨-12, 10⟩, ⟨2, 0⟩] = formatText [⟨3, 2⟩, ⟨-12, 10⟩, ⟨2, 0⟩]
    ∧ formatText [⟨3, 2⟩, ⟨-12, 10⟩, ⟨2, 0⟩]
        = ['3', 'x', '^', '2', ' ', '-', ' ', '1', '2', 'x', '^', '1', '0', ' ', '+', ' ', '2'] :=
  ⟨by decide,
    (streamOut_format [] [⟨3, 2⟩, ⟨-12, 10⟩, ⟨2, 0⟩] (by decide)).1, by decide⟩

/-! ## `operator<<` is injective -/

theorem putNat_head (a : Nat) : ∃ d ds, putNat a = d :: ds ∧ d.isDigit = true := by
  obtain ⟨h1, h2, _⟩ := putNat_spec a
  cases h : putNat a with
  | nil => exact absurd h h1
  | cons d ds =>
    refine ⟨d, ds, rfl, ?_⟩
    apply h2
    rw [h]
    exact List.mem_cons_self _ _

theorem termOut_pos (first : Bool) (t : Node) (h : 0 < t.coef) :
    termOut first t
      = (if first then [] else [' ', '+', ' ']) ++ (putNat t.coef.natAbs ++ expOut t.exp) := by
  unfold termOut expOut
  rw [putInt_abs]
  have h' : ¬ t.coef < 0 := by omega
  cases first <;> simp [h, h']

theorem termOut_neg (first : Bool) (t : Node) (h : t.coef < 0) :
    termOut first t = [' ', '-', ' '] ++ (putNat t.coef.natAbs ++ expOut t.exp) := by
  unfold termOut expOut
  rw [putInt_abs]
  have h' : ¬ t.coef > 0 := by omega
  cases first <;> simp [h, h']

theorem blankOrEmpty_outLoop (p : Polynomial) (hp : NoZero p) :
    BlankOrEmpty (outLoop p false) := by
  cases p with
  | nil => left; rfl
  | cons t rest =>
    right
    rw [outLoop]
    rcases lt_or_gt_of_ne (hp t (List.mem_cons_self _ _)) with h | h
    · rw [termOut_neg false t h]
      exact ⟨_, rfl⟩
    · rw [termOut_pos false t h]
      exact ⟨_, rfl⟩

theorem stopsDigits_of_blankOrEmpty (t : List Char) (h : BlankOrEmpty t) :
    StopsDigits t := by
  rcases h with rfl | ⟨u, rfl⟩
  · exact stopsDigits_nil
  · exact stopsDigits_cons _ _ (by decide)

theorem stopsDigits_expOut (e : Int) (t : List Char) (h : BlankOrEmpty t) :
    StopsDigits (expOut e ++ t) := by
  unfold expOut
  by_cases he : e ≠ 0
  · rw [if_pos he]
    exact stopsDigits_cons _ _ (by decide)
  · rw [if_neg he]
    exact stopsDigits_of_blankOrEmpty t h

theorem expOut_append_inj (e1 e2 : Int) (t1 t2 : List Char) (h1 : 0 ≤ e1)
    (h2 : 0 ≤ e2) (ht1 : BlankOrEmpty t1) (ht2 : BlankOrEmpty t2)
    (h : expOut e1 ++ t1 = expOut e2 ++ t2) : e1 = e2 ∧ t1 = t2 := by
  unfold expOut at h
  by_cases he1 : e1 = 0
  · by_cases he2 : e2 = 0
    · simp only [he1, he2, ne_eq, not_true_eq_false, if_false, List.nil_append] at h
      exact ⟨by omega, h⟩
    · exfalso
      simp only [he1, he2, ne_eq, not_true_eq_false, not_false_eq_true, if_false, if_true,
        List.nil_append, List.cons_append] at h
      rcases ht1 with rfl | ⟨u, rfl⟩
      · cases h
      · injection h with hc _
        exact absurd hc (by decide)
  · by_cases he2 : e2 = 0
    · exfalso
      simp only [he1, he2, ne_eq, not_true_eq_false, not_false_eq_true, if_false, if_true,
        List.nil_append, List.cons_append] at h
      rcases ht2 with rfl | ⟨u, rfl⟩
      · cases h
      · injection h with hc _
        exact absurd hc (by decide)
    · simp only [he1, he2, ne_eq, not_false_eq_true, if_true, List.cons_append,
        List.cons.injEq, true_and] at h
      rw [putInt_of_nonneg e1 h1, putInt_of_nonneg e2 h2] at h
      obtain ⟨hn, ht⟩ := putNat_append_inj _ _ _ _
        (stopsDigits_of_blankOrEmpty t1 ht1) (stopsDigits_of_blankOrEmpty t2 ht2) h
      exact ⟨by omega, ht⟩

theorem body_append_inj (a b : Nat) (e1 e2 : Int) (t1 t2 : List Char) (h1 : 0 ≤ e1)
    (h2 : 0 ≤ e2) (ht1 : BlankOrEmpty t1) (ht2 : BlankOrEmpty t2)
    (h : putNat a ++ (expOut e1 ++ t1) = putNat b ++ (expOut e2 ++ t2)) :
    a = b ∧ e1 = e2 ∧ t1 = t2 := by
  obtain ⟨hab, hrest⟩ := putNat_append_inj a b _ _ (stopsDigits_expOut e1 t1 ht1)
    (stopsDigits_expOut e2 t2 ht2) h
  exact ⟨hab, expOut_append_inj e1 e2 t1 t2 h1 h2 ht1 ht2 hrest⟩

theorem node_eq_of (n m : Node) (hc : n.coef = m.coef) (he : n.exp = m.exp) : n = m := by
  cases n; cases m
  simp only at hc he
  rw [hc, he]

theorem termOut_append_inj (first : Bool) (n m : Node) (t1 t2 : List Char)
    (hn : n.coef ≠ 0) (hm : m.coef ≠ 0) (hne : 0 ≤ n.exp) (hme : 0 ≤ m.exp)
    (ht1 : BlankOrEmpty t1) (ht2 : BlankOrEmpty t2)
    (h : termOut first n ++ t1 = termOut first m ++ t2) : n = m ∧ t1 = t2 := by
  rcases lt_or_gt_of_ne hn with hn' | hn' <;> rcases lt_or_gt_of_ne hm with hm' | hm'
  · rw [termOut_neg first n hn', termOut_neg first m hm', List.append_assoc,
      List.append_assoc, List.append_assoc, List.append_assoc] at h
    have h' := List.append_cancel_left h
    obtain ⟨hab, he, ht⟩ := body_append_inj _ _ _ _ _ _ hne hme ht1 ht2 h'
    exact ⟨node_eq_of n m (by omega) he, ht⟩
  · exfalso
    rw [termOut_neg first n hn', termOut_pos first m hm'] at h
    obtain ⟨d, ds, hd, hdig⟩ := putNat_head m.coef.natAbs
    cases first
    · simp only [Bool.false_eq_true, if_false, List.cons_append, List.nil_append,
        List.cons.injEq, true_and] at h
      exact absurd h.1 (by decide)
    · simp only [if_true, List.nil_append, hd, List.cons_append, List.cons.injEq] at h
      rw [← h.1] at hdig
      exact absurd hdig (by decide)
  · exfalso
    rw [termOut_pos first n hn', termOut_neg first m hm'] at h
    obtain ⟨d, ds, hd, hdig⟩ := putNat_head n.coef.natAbs
    cases first
    · simp only [Bool.false_eq_true, if_false, List.cons_append, List.nil_append,
        List.cons.injEq, true_and] at h
      exact absurd h.1 (by decide)
    · simp only [if_true, List.nil_append, hd, List.cons_append, List.cons.injEq] at h
      rw [h.1] at hdig
      exact absurd hdig (by decide)
  · rw [termOut_pos first n hn', termOut_pos first m hm', List.append_assoc,
      List.append_assoc, List.append_assoc, List.append_assoc] at h
    have h' := List.append_cancel_left h
    obtain ⟨hab, he, ht⟩ := body_append_inj _ _ _ _ _ _ hne hme ht1 ht2 h'
    exact ⟨node_eq_of n m (by omega) he, ht⟩

theorem termOut_ne_nil (first : Bool) (n : Node) (hn : n.coef ≠ 0) :
    termOut first n ≠ [] := by
  obtain ⟨d, ds, hd, _⟩ := putNat_head n.coef.natAbs
  rcases lt_or_gt_of_ne hn with h | h
  · rw [termOut_neg first n h]
    simp
  · rw [termOut_pos first n h, hd]
    cases first <;> simp

theorem outLoop_inj (p q : Polynomial) (first : Bool) (hp : NoZero p) (hq : NoZero q)
    (hpe : ∀ n ∈ p, 0 ≤ n.exp) (hqe : ∀ n ∈ q, 0 ≤ n.exp)
    (h : outLoop p first = outLoop q first) : p = q := by
  induction p generalizing q first with
  | nil =>
    cases q with
    | nil => rfl
    | cons m q' =>
      exfalso
      rw [outLoop, outLoop] at h
      have := termOut_ne_nil first m (hq m (List.mem_cons_self _ _))
      cases hm : termOut first m with
      | nil => exact this hm
      | cons c cs => rw [hm] at h; cases h
  | cons n p' ih =>
    cases q with
    | nil =>
      exfalso
      rw [outLoop, outLoop] at h
      have := termOut_ne_nil first n (hp n (List.mem_cons_self _ _))
      cases hn : termOut first n with
      | nil => exact this hn
      | cons c cs => rw [hn] at h; cases h
    | cons m q' =>
      have hp' : NoZero p' := fun x hx => hp x (List.mem_cons_of_mem _ hx)
      have hq' : NoZero q' := fun x hx => hq x (List.mem_cons_of_mem _ hx)
      rw [outLoop, outLoop] at h
      obtain ⟨hnm, ht⟩ := termOut_append_inj first n m _ _
        (hp n (List.mem_cons_self _ _)) (hq m (List.mem_cons_self _ _))
        (hpe n (List.mem_cons_self _ _)) (hqe m (List.mem_cons_self _ _))
        (blankOrEmpty_outLoop p' hp') (blankOrEmpty_outLoop q' hq') h
      rw [hnm, ih q' false hp' hq' (fun x hx => hpe x (List.mem_cons_of_mem _ hx))
        (fun x hx => hqe x (List.mem_cons_of_mem _ hx)) ht]

/-- C20 (serialization is injective).  Two normalized polynomials with
non-negative exponents for which `operator<<` writes the same text have the
same term sequence. -/
theorem streamOut_injective (p q : Polynomial) (hp : Normalized p) (hq : Normalized q)
    (hpe : ∀ n ∈ p, 0 ≤ n.exp) (hqe : ∀ n ∈ q, 0 ≤ n.exp)
    (h : streamOut p = streamOut q) : p = q :=
  outLoop_inj p q true hp.2 hq.2 hpe hqe h

theorem streamOut_injective_witness :
    Normalized [⟨3, 2⟩, ⟨2, 0⟩] ∧ Normalized (add [⟨3, 2⟩] [⟨2, 0⟩])
    ∧ streamOut [⟨3, 2⟩, ⟨2, 0⟩] = streamOut (add [⟨3, 2⟩] [⟨2, 0⟩])
    ∧ [⟨3, 2⟩, ⟨2, 0⟩] = add [⟨3, 2⟩] [⟨2, 0⟩] :=
  have hadd : add [⟨3, 2⟩] [⟨2, 0⟩] = [⟨3, 2⟩, ⟨2, 0⟩] := by
    simp [add, addLoop, addTerm, addTerm.scan, Polynomial.empty]
  ⟨by decide, add_normalized _ _, by rw [hadd],
    streamOut_injective [⟨3, 2⟩, ⟨2, 0⟩] (add [⟨3, 2⟩] [⟨2, 0⟩]) (by decide)
      (add_normalized _ _) (by decide) (by rw [hadd]; decide) (by rw [hadd])⟩

/-! ## `operator>>` -/

theorem isDigit_toNat (c : Char) (h : c.isDigit = true) : 48 ≤ c.toNat ∧ c.toNat ≤ 57 := by
  simp only [Char.isDigit, Bool.and_eq_true, decide_eq_true_eq] at h
  have h1 : (48 : UInt32).toNat ≤ c.val.toNat := h.1
  have h2 : c.val.toNat ≤ (57 : UInt32).toNat := h.2
  exact ⟨h1, h2⟩

theorem isSpace_of_isDigit (c : Char) (h : c.isDigit = true) : isSpace c = false := by
  have hn := isDigit_toNat c h
  have hb : c ≠ ' ' := by
    intro e
    rw [e] at h
    exact absurd h (by decide)
  have h9 : decide (9 ≤ c.toNat) = true := decide_eq_true (by omega)
  have h13 : decide (c.toNat ≤ 13) = false := decide_eq_false (by omega)
  have hb' : decide (c = ' ') = false := decide_eq_false hb
  unfold isSpace
  rw [hb', h9, h13]
  rfl

theorem not_sign_of_isDigit (c : Char) (h : c.isDigit = true) : c ≠ '-' ∧ c ≠ '+' := by
  constructor <;> intro e <;> rw [e] at h <;> exact absurd h (by decide)

theorem extractInt_putNat (n : Nat) (r : List Char) (hr : StopsDigits r) :
    extractInt ⟨putNat n ++ r, true⟩ = (⟨r, !r.isEmpty⟩, some (n : Int)) := by
  obtain ⟨d, ds, hd, hdig⟩ := putNat_head n
  obtain ⟨hne, hall, hval⟩ := putNat_spec n
  have hsp : skipSpace (putNat n ++ r) = d :: (ds ++ r) := by
    rw [hd, List.cons_append, skipSpace, isSpace_of_isDigit d hdig]
    rfl
  have hs := not_sign_of_isDigit d hdig
  have htd : takeDigits (d :: (ds ++ r)) = (putNat n, r) := by
    rw [← List.cons_append, ← hd]
    exact takeDigits_append _ _ hall hr
  have hemp : (putNat n).isEmpty = false := by
    rw [hd]; rfl
  unfold extractInt
  simp only [Bool.not_true, Bool.false_eq_true, if_false, hsp, hs.1, hs.2,
    decide_False, Bool.or_self, htd, hemp, hval]

theorem extractInt_putInt (v : Int) (r : List Char) (hr : StopsDigits r) :
    extractInt ⟨putInt v ++ r, true⟩ = (⟨r, !r.isEmpty⟩, some v) := by
  by_cases hv : v < 0
  · obtain ⟨hne, hall, hval⟩ := putNat_spec v.natAbs
    have hp : putInt v = '-' :: putNat v.natAbs := by
      unfold putInt
      rw [if_pos hv]
    have hsp : skipSpace ('-' :: (putNat v.natAbs ++ r)) = '-' :: (putNat v.natAbs ++ r) := by
      rw [skipSpace, if_neg (by decide)]
    have htd := takeDigits_append _ _ hall hr
    have hemp : (putNat v.natAbs).isEmpty = false := by
      cases h : putNat v.natAbs with
      | nil => exact absurd h hne
      | cons _ _ => rfl
    have hvv : -((v.natAbs : Nat) : Int) = v := by omega
    unfold extractInt
    simp only [hp, List.cons_append, Bool.not_true, Bool.false_eq_true, if_false, hsp,
      decide_True, Bool.true_or, if_true, htd, hemp, hval, hvv]
  · rw [putInt_of_nonneg v (by omega), extractInt_putNat _ _ hr]
    have hvv : ((v.natAbs : Nat) : Int) = v := by omega
    rw [hvv]

theorem extractInt_blank_putInt (v : Int) (r : List Char) (hr : StopsDigits r) :
    extractInt ⟨' ' :: (putInt v ++ r), true⟩ = (⟨r, !r.isEmpty⟩, some v) := by
  have h := extractInt_putInt v r hr
  unfold extractInt at h ⊢
  simp only [Bool.not_true, Bool.false_eq_true, if_false] at h ⊢
  have hsp : skipSpace (' ' :: (putInt v ++ r)) = skipSpace (putInt v ++ r) := by
    rw [skipSpace, if_pos (by decide)]
  rw [hsp]
  exact h

theorem pairsText_cons (c : Int × Int) (rest : List (Int × Int)) :
    pairsText (c :: rest)
      = ' ' :: (putInt c.1 ++ (' ' :: (putInt c.2 ++ pairsText rest))) := by
  simp [pairsText]

theorem stopsDigits_pairsText (l : List (Int × Int)) : StopsDigits (pairsText l) := by
  cases l with
  | nil => exact stopsDigits_nil
  | cons c rest =>
    rw [pairsText_cons]
    exact stopsDigits_cons _ _ (by decide)

theorem inLoop_pairsText (l : List (Int × Int)) (x : Polynomial) :
    inLoop l.length ⟨pairsText l, !(pairsText l).isEmpty⟩ x
      = some (⟨[], false⟩, addTerms l x) := by
  induction l generalizing x with
  | nil => rfl
  | cons c rest ih =>
    have h1 : extractInt ⟨' ' :: (putInt c.1 ++ (' ' :: (putInt c.2 ++ pairsText rest))), true⟩
        = (⟨' ' :: (putInt c.2 ++ pairsText rest), true⟩, some c.1) :=
      extractInt_blank_putInt c.1 _ (stopsDigits_cons _ _ (by decide))
    have h2 : extractInt ⟨' ' :: (putInt c.2 ++ pairsText rest), true⟩
        = (⟨pairsText rest, !(pairsText rest).isEmpty⟩, some c.2) :=
      extractInt_blank_putInt c.2 _ (stopsDigits_pairsText rest)
    have hg : (!(pairsText (c :: rest)).isEmpty) = true := by
      rw [pairsText_cons]; rfl
    rw [hg, pairsText_cons, List.length_cons, inLoop]
    simp only [h1, h2]
    exact ih _

theorem streamIn_termListText (l : List (Int × Int)) (x : Polynomial) :
    streamIn ⟨termListText l, true⟩ x = some (⟨[], false⟩, addTerms l x) := by
  have h : extractInt ⟨putInt (l.length : Int) ++ pairsText l, true⟩
      = (⟨pairsText l, !(pairsText l).isEmpty⟩, some (l.length : Int)) :=
    extractInt_putInt _ _ (stopsDigits_pairsText l)
  unfold streamIn termListText
  simp only [h, Int.toNat_ofNat]
  exact inLoop_pairsText l x

theorem readPolynomial_termListText (l : List (Int × Int)) :
    readPolynomial (termListText l) = some (addTerms l Polynomial.empty) := by
  unfold readPolynomial
  rw [streamIn_termListText]
  rfl

theorem addTerms_termList (p : List Node) (r : Polynomial) :
    addTerms (termList p) r = copyLoop p r := by
  induction p generalizing r with
  | nil => rfl
  | cons n rest ih =>
    have h : addTerms (termList (n :: rest)) r
        = addTerms (termList rest) (addTerm r n.coef n.exp) := rfl
    rw [h, ih, copyLoop]

theorem readPolynomial_streamOut_neg (a : Node) (rest : List Node) (ha : a.coef < 0) :
    readPolynomial (streamOut (a :: rest)) = some Polynomial.empty := by
  have hout : streamOut (a :: rest)
      = ' ' :: '-' :: ' ' :: (putNat a.coef.natAbs ++ expOut a.exp ++ outLoop rest false) := by
    unfold streamOut
    rw [outLoop, termOut_neg true a ha]
    simp
  have hsp : skipSpace (' ' :: '-' :: ' ' ::
      (putNat a.coef.natAbs ++ expOut a.exp ++ outLoop rest false))
      = '-' :: ' ' :: (putNat a.coef.natAbs ++ expOut a.exp ++ outLoop rest false) := by
    rw [skipSpace, if_pos (by decide), skipSpace, if_neg (by decide)]
  have htd : takeDigits (' ' ::
      (putNat a.coef.natAbs ++ expOut a.exp ++ outLoop rest false))
      = ([], ' ' :: (putNat a.coef.natAbs ++ expOut a.exp ++ outLoop rest false)) := by
    rw [takeDigits, if_neg (by decide)]
  have hex : extractInt ⟨streamOut (a :: rest), true⟩
      = (⟨' ' :: (putNat a.coef.natAbs ++ expOut a.exp ++ outLoop rest false), false⟩,
          some 0) := by
    rw [hout]
    unfold extractInt
    simp only [Bool.not_true, Bool.false_eq_true, if_false, hsp, decide_True, Bool.true_or,
      if_true, htd, List.isEmpty_nil]
  unfold readPolynomial streamIn
  simp only [hex]
  rfl

/-- C11, as stated: the term list `1 -1 1` is read as the polynomial `-x`;
`operator<<` writes it as ` - 1x^1`, and `operator>>`, reading that text into
a fresh polynomial, extracts the count 0 and yields the zero polynomial, not
`-x`. -/
theorem text_roundtrip_counterexample :
    readPolynomial (termListText [(-1, 1)]) = some [⟨-1, 1⟩]
    ∧ streamOut [⟨-1, 1⟩] = [' ', '-', ' ', '1', 'x', '^', '1']
    ∧ readPolynomial (streamOut [⟨-1, 1⟩]) = some Polynomial.empty
    ∧ ¬ (∀ p, readPolynomial (termListText [(-1, 1)]) = some p →
          readPolynomial (streamOut p) = some p) := by
  refine ⟨by decide, by decide, by decide, ?_⟩
  intro h
  exact absurd (h [⟨-1, 1⟩] (by decide)) (by decide)

/-- C11, amended: reading a term list with `operator>>`, writing the stored
terms of the result as a term list (their count, then their
coefficient/exponent pairs in stored order) and reading that again into a
fresh polynomial yields the same term sequence.  The text of `operator<<` is
not such a term list: when the first stored coefficient is negative,
`operator>>` reads from it the zero polynomial. -/
theorem termList_roundtrip (l : List (Int × Int)) :
    readPolynomial (termListText l) = some (addTerms l Polynomial.empty)
    ∧ readPolynomial (termListText (termList (addTerms l Polynomial.empty)))
        = some (addTerms l Polynomial.empty)
    ∧ (∀ a rest, addTerms l Polynomial.empty = a :: rest → a.coef < 0 →
        readPolynomial (streamOut (addTerms l Polynomial.empty))
          = some Polynomial.empty) := by
  refine ⟨readPolynomial_termListText l, ?_, ?_⟩
  · rw [readPolynomial_termListText, addTerms_termList]
    exact congrArg some
      (copy_of_normalized _ (addTerms_normalized l _ normalized_empty))
  · intro a rest h ha
    rw [h]
    exact readPolynomial_streamOut_neg a rest ha

/-- C18 (insertion-order independence).  Feeding a list of
`(coefficient, exponent)` pairs and any permutation of it to `addTerm`, starting
from the empty polynomial, gives the same term sequence, so `operator>>` reads
the same polynomial from both term lists; and on a normalized `p`,
`addTerm(c1, e1)` then `addTerm(c2, e2)` gives the same result as the two calls
in the other order. -/
theorem addTerm_order_independent (l1 l2 : List (Int × Int)) (h : l1.Perm l2)
    (p : Polynomial) (hp : Normalized p) (c1 e1 c2 e2 : Int) :
    addTerms l1 Polynomial.empty = addTerms l2 Polynomial.empty
    ∧ readPolynomial (termListText l1) = readPolynomial (termListText l2)
    ∧ addTerm (addTerm p c1 e1) c2 e2 = addTerm (addTerm p c2 e2) c1 e1 := by
  have hperm : addTerms l1 Polynomial.empty = addTerms l2 Polynomial.empty := by
    apply normalized_ext _ _ (addTerms_normalized l1 _ normalized_empty)
      (addTerms_normalized l2 _ normalized_empty)
    intro k
    rw [coeffSum_addTerms, coeffSum_addTerms, callSum_perm l1 l2 h]
  refine ⟨hperm, ?_, ?_⟩
  · rw [readPolynomial_termListText, readPolynomial_termListText, hperm]
  · apply normalized_ext _ _
      (addTerm_normalized _ _ _ (addTerm_normalized _ _ _ hp))
      (addTerm_normalized _ _ _ (addTerm_normalized _ _ _ hp))
    intro k
    rw [coeffSum_addTerm, coeffSum_addTerm, coeffSum_addTerm, coeffSum_addTerm]
    omega

theorem addTerm_order_independent_witness :
    List.Perm [(3, 2), (2, 0), (4, 2)] [(4, 2), (3, 2), (2, 0)]
    ∧ Normalized [⟨3, 2⟩, ⟨2, 0⟩]
    ∧ addTerms [(3, 2), (2, 0), (4, 2)] Polynomial.empty
        = addTerms [(4, 2), (3, 2), (2, 0)] Polynomial.empty
    ∧ readPolynomial (termListText [(3, 2), (2, 0), (4, 2)])
        = readPolynomial (termListText [(4, 2), (3, 2), (2, 0)])
    ∧ addTerm (addTerm [⟨3, 2⟩, ⟨2, 0⟩] 1 1) (-3) 2
        = addTerm (addTerm [⟨3, 2⟩, ⟨2, 0⟩] (-3) 2) 1 1 :=
  ⟨by decide, by decide,
    addTerm_order_independent [(3, 2), (2, 0), (4, 2)] [(4, 2), (3, 2), (2, 0)]
      (by decide) [⟨3, 2⟩, ⟨2, 0⟩] (by decide) 1 1 (-3) 2⟩

/-! ## `Evaluate` at 0 in `float` arithmetic -/

theorem roundNearestEven_intCast (z : ℤ) : roundNearestEven (z : ℚ) = z := by
  unfold roundNearestEven
  simp

/-- A non-zero value that is a multiple of the unit in the last place of its
binade and is below the overflow threshold is its own rounding. -/
theorem fpRound_of_multiple (prec : Nat) (emin emax : Int) (q : ℚ) (z : ℤ)
    (hq : q ≠ 0)
    (hz : q = z * (2 : ℚ) ^ (max (Int.log 2 |q|) emin - (prec - 1 : Int)))
    (hb : |q| < 2 ^ (emax + 1)) : fpRound prec emin emax q = some q := by
  have hpos : (0 : ℚ) < 2 ^ (max (Int.log 2 |q|) emin - (prec - 1 : Int)) :=
    zpow_pos (by norm_num) _
  have hdiv : q / 2 ^ (max (Int.log 2 |q|) emin - (prec - 1 : Int)) = (z : ℚ) := by
    rw [div_eq_iff (ne_of_gt hpos)]
    exact hz
  unfold fpRound
  rw [if_neg hq, hdiv, roundNearestEven_intCast, ← hz, if_pos hb]

theorem log_abs_int_nonneg (c : ℤ) (hc : c ≠ 0) : 0 ≤ Int.log 2 |(c : ℚ)| := by
  have habs : (1 : ℚ) ≤ |(c : ℚ)| := by
    have h1 : (1 : ℤ) ≤ |c| := Int.one_le_abs hc
    exact_mod_cast h1
  have hpos : (0 : ℚ) < |(c : ℚ)| := by linarith
  have := (Int.zpow_le_iff_le_log (R := ℚ) (b := 2) (by norm_num) (x := 0) hpos).1
    (by simpa using habs)
  exact this

/-- An integer of magnitude below `2 ^ prec` is representable. -/
theorem fpRound_int (prec : Nat) (emin emax : Int) (c : ℤ) (hemin : emin ≤ 0)
    (hc : |c| < 2 ^ prec) (hprec : (prec : Int) ≤ emax + 1) :
    fpRound prec emin emax (c : ℚ) = some (c : ℚ) := by
  by_cases h0 : c = 0
  · subst h0
    simp [fpRound]
  have hq : (c : ℚ) ≠ 0 := by exact_mod_cast h0
  have habsq : |(c : ℚ)| < (2 : ℚ) ^ (prec : ℤ) := by
    have : ((|c| : ℤ) : ℚ) < ((2 ^ prec : ℤ) : ℚ) := by exact_mod_cast hc
    simpa using this
  have hpos : (0 : ℚ) < |(c : ℚ)| := abs_pos.2 hq
  have hlog0 := log_abs_int_nonneg c h0
  have hlog1 : Int.log 2 |(c : ℚ)| < (prec : ℤ) :=
    (Int.lt_zpow_iff_log_lt (R := ℚ) (b := 2) (by norm_num) hpos).1
      (by simpa using habsq)
  have hmax : max (Int.log 2 |(c : ℚ)|) emin = Int.log 2 |(c : ℚ)| :=
    max_eq_left (by omega)
  obtain ⟨k, hk⟩ : ∃ k : ℕ, (k : ℤ) = (prec : ℤ) - 1 - Int.log 2 |(c : ℚ)| :=
    ⟨((prec : ℤ) - 1 - Int.log 2 |(c : ℚ)|).toNat, Int.toNat_of_nonneg (by omega)⟩
  apply fpRound_of_multiple prec emin emax (c : ℚ) (c * 2 ^ k) hq
  · rw [hmax]
    have he : Int.log 2 |(c : ℚ)| - ((prec : ℤ) - 1) = -(k : ℤ) := by omega
    rw [he, zpow_neg, zpow_natCast]
    push_cast
    field_simp
  · calc |(c : ℚ)| < (2 : ℚ) ^ (prec : ℤ) := habsq
      _ ≤ 2 ^ (emax + 1) := zpow_le_zpow_right₀ (by norm_num) hprec

theorem toDouble_int32 (c : ℤ) (hc : IsInt32 c) : toDouble (c : ℚ) = some (c : ℚ) := by
  unfold toDouble
  apply fpRound_int 53 (-1022) 1023 c (by norm_num) _ (by norm_num)
  unfold IsInt32 at hc
  rw [abs_lt]
  constructor <;> norm_num <;> omega

theorem toFloat_small_int (c : ℤ) (hc : |c| < 16777216) :
    toFloat (c : ℚ) = some (c : ℚ) := by
  unfold toFloat
  apply fpRound_int 24 (-126) 127 c (by norm_num) _ (by norm_num)
  norm_num
  exact hc

theorem log_two_of_bounds (q : ℚ) (e : ℤ) (h1 : (2 : ℚ) ^ e ≤ |q|)
    (h2 : |q| < (2 : ℚ) ^ (e + 1)) : Int.log 2 |q| = e := by
  have hpos : (0 : ℚ) < |q| := lt_of_lt_of_le (zpow_pos (by norm_num) e) h1
  have hle : e ≤ Int.log 2 |q| :=
    (Int.zpow_le_iff_le_log (R := ℚ) (b := 2) (by norm_num) hpos).1 (by simpa using h1)
  have hlt : Int.log 2 |q| < e + 1 :=
    (Int.lt_zpow_iff_log_lt (R := ℚ) (b := 2) (by norm_num) hpos).1 (by simpa using h2)
  omega

theorem toFloat_int_le (c : ℤ) (hc : |c| ≤ 16777216) : toFloat (c : ℚ) = some (c : ℚ) := by
  by_cases hlt : |c| < 16777216
  · exact toFloat_small_int c hlt
  · have habs : |c| = 16777216 := by omega
    have habsq : |(c : ℚ)| = 16777216 := by
      have : ((|c| : ℤ) : ℚ) = ((16777216 : ℤ) : ℚ) := by rw [habs]
      simpa using this
    have hlog : Int.log 2 |(c : ℚ)| = 24 :=
      log_two_of_bounds _ 24 (by rw [habsq]; norm_num) (by rw [habsq]; norm_num)
    have hc2 : c = (c / 2) * 2 := by
      rcases abs_eq (by norm_num : (0 : ℤ) ≤ 16777216) |>.1 habs with h | h <;> rw [h] <;> norm_num
    unfold toFloat
    apply fpRound_of_multiple 24 (-126) 127 (c : ℚ) (c / 2)
    · intro h0
      rw [h0] at habsq
      norm_num at habsq
    · rw [hlog]
      norm_num
      exact_mod_cast hc2
    · rw [habsq]
      norm_num

theorem toFloat_16777217 : toFloat 16777217 = some 16777216 := by
  have hlog : Int.log 2 |(16777217 : ℚ)| = 24 :=
    log_two_of_bounds _ 24 (by norm_num [abs_of_pos]) (by norm_num [abs_of_pos])
  have hfloor : ⌊(16777217 : ℚ) / 2⌋ = 8388608 := by
    rw [Int.floor_eq_iff]
    constructor <;> norm_num
  have hr : roundNearestEven ((16777217 : ℚ) / 2) = 8388608 := by
    unfold roundNearestEven
    rw [hfloor]
    norm_num
  unfold toFloat fpRound
  rw [hlog]
  norm_num [hr]

theorem toFloat_zero : toFloat 0 = some 0 := by
  simp [toFloat, fpRound]

theorem toDouble_zero : toDouble 0 = some 0 := by
  simp [toDouble, fpRound]

theorem EvaluateFloatLoop_at_zero (pw : FP → Int → FP) (hpw : PowAtZero pw)
    (p : Polynomial) (hd : Descending p) (hexp : ∀ n ∈ p, 0 ≤ n.exp)
    (hint : ∀ n ∈ p, IsInt32 n.coef) :
    EvaluateFloatLoop pw (some 0) p (some 0) = toFloat ((coeff p 0 : Int) : ℚ) := by
  induction p with
  | nil =>
    simp only [EvaluateFloatLoop, coeff, Int.cast_zero, toFloat_zero]
  | cons n rest ih =>
    unfold Descending at hd ih
    rw [List.pairwise_cons] at hd
    have hn := hexp n (List.mem_cons_self _ _)
    have hc := hint n (List.mem_cons_self _ _)
    by_cases h0 : n.exp = 0
    · have hrest : rest = [] := by
        apply List.eq_nil_iff_forall_not_mem.2
        intro m hm
        have h1 := hd.1 m hm
        have h2 := hexp m (List.mem_cons_of_mem _ hm)
        omega
      subst hrest
      have hstep : (pw (some 0) 0).bind (fun w => toDouble ((n.coef : ℚ) * w))
          = some (n.coef : ℚ) := by
        rw [hpw.1]
        simp only [Option.some_bind, mul_one]
        exact toDouble_int32 n.coef hc
      simp only [EvaluateFloatLoop, Option.some_bind, h0, hstep, zero_add,
        toDouble_int32 n.coef hc, coeff, if_true]
    · have hpos : 0 < n.exp := by omega
      have hstep : (pw (some 0) n.exp).bind (fun w => toDouble ((n.coef : ℚ) * w))
          = some 0 := by
        rw [hpw.2 n.exp hpos]
        simp only [Option.some_bind, mul_zero]
        exact toDouble_zero
      have hcoeff : coeff (n :: rest) 0 = coeff rest 0 := by
        rw [coeff, if_neg h0]
      rw [hcoeff, ← ih hd.2 (fun m hm => hexp m (List.mem_cons_of_mem _ hm))
        (fun m hm => hint m (List.mem_cons_of_mem _ hm))]
      simp only [EvaluateFloatLoop, Option.some_bind, hstep, add_zero, toDouble_zero,
        toFloat_zero]

theorem powRounded_powAtZero : PowAtZero powRounded := by
  constructor
  · simp [powRounded]
  · intro e he
    have hne : e ≠ 0 := by omega
    have hnl : ¬ e < 0 := by omega
    simp [powRounded, hne, hnl, zero_zpow, toDouble_zero]

/-- C15, as stated: the normalized polynomial `{(16777217, 0)}` has coefficient
16777217 at exponent 0, but `Evaluate(0)` returns the `float` 16777216, the
nearest `float` to `16777217 * pow(0, 0)`, whatever `pow` is as long as
`pow(0, 0) = 1`. -/
theorem Evaluate_at_zero_counterexample :
    Normalized [⟨16777217, 0⟩]
    ∧ (∀ n ∈ ([⟨16777217, 0⟩] : Polynomial), 0 ≤ n.exp)
    ∧ coeff [⟨16777217, 0⟩] 0 = 16777217
    ∧ EvaluateFloat powRounded [⟨16777217, 0⟩] (some 0) = some 16777216
    ∧ EvaluateFloat powRounded [⟨16777217, 0⟩] (some 0)
        ≠ some ((coeff [⟨16777217, 0⟩] 0 : Int) : ℚ)
    ∧ (∀ pw, PowAtZero pw →
        EvaluateFloat pw [⟨16777217, 0⟩] (some 0) = some 16777216) := by
  have hc : coeff [⟨16777217, 0⟩] 0 = 16777217 := by decide
  have hall : ∀ pw, PowAtZero pw →
      EvaluateFloat pw [⟨16777217, 0⟩] (some 0) = some 16777216 := by
    intro pw hpw
    unfold EvaluateFloat
    rw [EvaluateFloatLoop_at_zero pw hpw _ (by decide) (by decide) (by decide), hc]
    exact_mod_cast toFloat_16777217
  have h := hall powRounded powRounded_powAtZero
  refine ⟨by decide, by decide, by decide, h, ?_, hall⟩
  rw [h, hc]
  norm_num

/-- C15, amended.  For a normalized `p` with non-negative exponents and `int`
coefficients, `Evaluate(0)` is the coefficient of the exponent-0 term of `p`
rounded to the nearest `float`: the coefficient itself when its absolute value
is at most 16777216 (`2^24`), and 0 when `p` has no such term; the zero
polynomial evaluates to 0 at every `x`.  This uses `pow(0, 0) = 1` and
`pow(0, e) = 0` for `e > 0`. -/
theorem EvaluateFloat_at_zero (pw : FP → Int → FP) (p : Polynomial)
    (hpw : PowAtZero pw) (hp : Normalized p) (hexp : ∀ n ∈ p, 0 ≤ n.exp)
    (hint : ∀ n ∈ p, IsInt32 n.coef) :
    EvaluateFloat pw p (some 0) = toFloat ((coeff p 0 : Int) : ℚ)
    ∧ (|coeff p 0| ≤ 16777216 →
        EvaluateFloat pw p (some 0) = some ((coeff p 0 : Int) : ℚ))
    ∧ (¬ HasExp p 0 → EvaluateFloat pw p (some 0) = some 0)
    ∧ (∀ x, EvaluateFloat pw Polynomial.empty x = some 0) := by
  have h : EvaluateFloat pw p (some 0) = toFloat ((coeff p 0 : Int) : ℚ) :=
    EvaluateFloatLoop_at_zero pw hpw p hp.1 hexp hint
  refine ⟨h, ?_, ?_, ?_⟩
  · intro hle
    rw [h, toFloat_int_le _ hle]
  · intro hno
    rw [h, coeff_eq_coeffSum p hp.1, coeffSum_eq_zero_of_not_hasExp p 0 hno]
    exact_mod_cast toFloat_zero
  · intro x
    rfl

theorem EvaluateFloat_at_zero_witness :
    PowAtZero powRounded
    ∧ Normalized [⟨3, 2⟩, ⟨-1, 1⟩, ⟨4, 0⟩]
    ∧ (∀ n ∈ ([⟨3, 2⟩, ⟨-1, 1⟩, ⟨4, 0⟩] : Polynomial), 0 ≤ n.exp)
    ∧ (∀ n ∈ ([⟨3, 2⟩, ⟨-1, 1⟩, ⟨4, 0⟩] : Polynomial), IsInt32 n.coef)
    ∧ coeff [⟨3, 2⟩, ⟨-1, 1⟩, ⟨4, 0⟩] 0 = 4
    ∧ EvaluateFloat powRounded [⟨3, 2⟩, ⟨-1, 1⟩, ⟨4, 0⟩] (some 0)
        = some ((coeff [⟨3, 2⟩, ⟨-1, 1⟩, ⟨4, 0⟩] 0 : Int) : ℚ) :=
  ⟨powRounded_powAtZero, by decide, by decide, by decide, by decide,
    (EvaluateFloat_at_zero powRounded [⟨3, 2⟩, ⟨-1, 1⟩, ⟨4, 0⟩] powRounded_powAtZero
      (by decide) (by decide) (by decide)).2.1 (by decide)⟩

end HW3
